import Mathlib

/-!
# lb-hosts-manager: the reconciliation of a hosts file with a cluster's load balancers

A shallow embedding of `internal/manager/main.go`.

* A Go `string` is modelled as the list of its Unicode code points (`Str`); the hosts
  file is UTF-8 text, and on valid UTF-8 the byte-wise operations used by the program
  (`strings.Split` on an ASCII separator, `strings.HasSuffix` with an ASCII suffix, the
  byte-wise order of `slices.Sort`) agree with their code-point counterparts.
* A Go `map[string]T` is modelled as an association list (`GoMap`) that holds each key
  once; the order in which `range` visits a map is not fixed by the language and is
  modelled by a `RangeOrder`, an arbitrary permutation chosen at each `range` statement.
* A run-time panic (index out of range) is modelled by `none`.
-/

namespace LbHostsManager

/-! ## Strings and the library functions used by the manager -/

/-- A Go string, as the list of its code points. -/
abbrev Str := List Char

/-- The predicate `unicode.IsSpace`: the code points with the Unicode White_Space property. -/
def isSpace (c : Char) : Bool :=
  let n := c.toNat
  (9 ≤ n && n ≤ 13) || n == 32 || n == 0x85 || n == 0xA0 || n == 0x1680 ||
  (0x2000 ≤ n && n ≤ 0x200a) || n == 0x2028 || n == 0x2029 || n == 0x202f ||
  n == 0x205f || n == 0x3000

/-- The function `strings.TrimSpace`: leading and trailing white space removed. -/
def trimSpace (s : Str) : Str :=
  ((s.dropWhile isSpace).reverse.dropWhile isSpace).reverse

/-- The function `strings.HasSuffix`. -/
def hasSuffix (s suffix : Str) : Bool :=
  suffix.reverse.isPrefixOf s.reverse

/-- The function `strings.Split` with a one-character separator: the fields between the
occurrences of the separator; the result always has at least one field. -/
def split (sep : Char) : Str → List Str
  | [] => [[]]
  | c :: cs =>
    if c = sep then [] :: split sep cs
    else
      match split sep cs with
      | [] => [[c]]
      | f :: fs => (c :: f) :: fs

/-- The function `strings.Join`. -/
def join (sep : Str) : List Str → Str
  | [] => []
  | [a] => a
  | a :: b :: rest => a ++ sep ++ join sep (b :: rest)

/-- The byte-wise order on strings (`a <= b`), which on UTF-8 is the lexicographic order
of the code points. -/
def strLe : Str → Str → Bool
  | [], _ => true
  | _ :: _, [] => false
  | a :: as, b :: bs =>
    if a.toNat < b.toNat then true
    else if b.toNat < a.toNat then false
    else strLe as bs

/-- The function `slices.Sort` on a slice of strings: the ascending rearrangement. -/
def slicesSort (l : List Str) : List Str :=
  l.insertionSort (fun a b => strLe a b = true)

/-! ## Go maps -/

/-- A Go `map[string]T`: its entries, each key held once. -/
abbrev GoMap (α : Type) := List (Str × α)

namespace GoMap

/-- The keys of a map. -/
def keys {α : Type} (m : GoMap α) : List Str := m.map Prod.fst

/-- The lookup `v, ok := m[k]`. -/
def get {α : Type} (m : GoMap α) (k : Str) : Option α :=
  match m with
  | [] => none
  | (k', v) :: rest => if k' = k then some v else get rest k

/-- The assignment `m[k] = v`. -/
def set {α : Type} (m : GoMap α) (k : Str) (v : α) : GoMap α :=
  match m with
  | [] => [(k, v)]
  | (k', v') :: rest => if k' = k then (k, v) :: rest else (k', v') :: set rest k v

/-- The builtin `delete(m, k)`. -/
def delete {α : Type} (m : GoMap α) (k : Str) : GoMap α :=
  m.filter (fun e => !decide (e.1 = k))

end GoMap

/-- The order in which the `range` statements of one run visit the entries of a map:
some rearrangement of the entries, not fixed by the language. The number tells the
`range` statements of a run apart, so that each may visit in an order of its own. -/
structure RangeOrder where
  /-- The entries in the order of the visit. -/
  order : {α : Type} → Nat → GoMap α → GoMap α
  /-- Every entry is visited once. -/
  perm : ∀ {α : Type} (n : Nat) (m : GoMap α), (order n m).Perm m

/-- The visit in the order of the entries. -/
def RangeOrder.forward : RangeOrder := ⟨fun _ m => m, fun _ _ => List.Perm.refl _⟩

/-- The visit in the opposite order. -/
def RangeOrder.backward : RangeOrder :=
  ⟨fun _ m => m.reverse, fun _ m => List.reverse_perm m⟩

/-! ## The manager -/

/-- The options of `New` that the modelled functions read. -/
structure Opts where
  IgnoreErrors : Bool

/-- The fields of `manager` that the modelled functions read. -/
structure Manager where
  ignoreErrors : Bool
  key : Str

/-- The marker `# lb-hosts-manager` that tags the lines the manager owns. -/
def markerKey : Str :=
  ['#', ' ', 'l', 'b', '-', 'h', 'o', 's', 't', 's', '-', 'm', 'a', 'n', 'a', 'g', 'e', 'r']

/-- The constructor `New`. -/
def New (o : Opts) : Manager :=
  { ignoreErrors := o.IgnoreErrors, key := markerKey }

/-- A Go `error` value: a plain message, or the result of `fmt.Errorf` with `%w`. -/
inductive GoError where
  | msg (text : Str)
  | wrapf (pfx : Str) (inner : GoError)
  deriving DecidableEq

/-- The method `Error()`. -/
def GoError.text : GoError → Str
  | .msg t => t
  | .wrapf p e => p ++ e.text

/-- The function `errors.Unwrap`. -/
def GoError.unwrap : GoError → Option GoError
  | .msg _ => none
  | .wrapf _ e => some e

/-- The method `handleError`: the error returned, and the lines logged. -/
def handleError (m : Manager) (err : Option GoError) : Option GoError × List Str :=
  match err with
  | none => (none, [])
  | some e =>
    let err := GoError.wrapf "error building k8s rest config: ".toList e
    if !m.ignoreErrors then (some err, [])
    else (none, [err.text])

/-! ### The service extractor -/

/-- An entry of `Status.LoadBalancer.Ingress`. -/
structure LoadBalancerIngress where
  IP : Str
  Hostname : Str

/-- The fields of a `corev1.Service` that the manager reads. -/
structure Service where
  Name : Str
  Namespace : Str
  /-- The field `Spec.Type`. -/
  SpecType : Str
  /-- The field `Status.LoadBalancer.Ingress`. -/
  Ingress : List LoadBalancerIngress

/-- The struct `service`: an exportable service. -/
structure service where
  dns : Str
  ip : Str
  deriving DecidableEq

/-- One iteration of the loop of `getExportedServices`. -/
def exportStep (svcs : List service) (svc : Service) : List service :=
  if svc.SpecType ≠ "LoadBalancer".toList then svcs
  else
    match svc.Ingress with
    | [] => svcs
    | ing :: _ =>
      let d := svc.Name ++ ".".toList ++ svc.Namespace ++ ".svc".toList
      let i := ing.IP
      svcs ++ [{ dns := d, ip := i }]

/-- The loop of `getExportedServices` over the items of the service list. -/
def exportLoop (items : List Service) : List service :=
  items.foldl exportStep []

/-- The method `getExportedServices`, given the outcome of the cluster query. -/
def getExportedServices (listed : Except GoError (List Service)) :
    Except GoError (List service) :=
  match listed with
  | .error err => .error err
  | .ok items => .ok (exportLoop items)

/-! ### The mapping reducer -/

/-- One iteration of the first loop of `processServices`. -/
def groupStep (ipm : GoMap (GoMap Bool)) (svc : service) : GoMap (GoMap Bool) :=
  match ipm.get svc.ip with
  | none => ipm.set svc.ip (GoMap.set [] svc.dns true)
  | some dnsm => ipm.set svc.ip (dnsm.set svc.dns true)

/-- The inner loop of `processServices`: the names of a group, in the order visited. -/
def namesOf (visited : GoMap Bool) : List Str :=
  visited.foldl (fun dnss e => dnss ++ [e.1]) []

/-- The second loop of `processServices`, over the groups in the order visited; the
number counts the inner `range` statements. -/
def collectLoop (ro : RangeOrder) : Nat → GoMap (GoMap Bool) → GoMap (List Str) →
    GoMap (List Str)
  | _, [], svcm => svcm
  | n, (ip, dnsm) :: rest, svcm =>
    collectLoop ro (n + 1) rest (svcm.set ip (namesOf (ro.order n dnsm)))

/-- The method `processServices`. -/
def processServices (ro : RangeOrder) (svcs : List service) : GoMap (List Str) :=
  let ipm := svcs.foldl groupStep []
  collectLoop ro 1 (ro.order 0 ipm) []

/-! ### The hosts-file reconciler -/

/-- The format `"%s\t%s\t%s"` of a managed line. -/
def sprintfLine (ip dnsstr key : Str) : Str :=
  ip ++ ['\t'] ++ dnsstr ++ ['\t'] ++ key

/-- The state of the walk over the lines: the lines emitted, the entries of the mapping
not yet matched, and the events logged. -/
structure WalkState where
  ls : List Str
  svcm : GoMap (List Str)
  events : List Str

/-- One iteration of the first loop of `updateHostsFile`; `none` when the line carries
the marker and has no second field, where the index `ps[1]` is out of range. -/
def walkLine (m : Manager) (st : WalkState) (l : Str) : Option WalkState :=
  let lts := trimSpace l
  if !hasSuffix lts m.key then
    some { st with ls := st.ls ++ [l] }
  else
    match split '\t' lts with
    | ip :: odnsstr :: _ =>
      match st.svcm.get ip with
      | none =>
        some { st with events := st.events ++ ["removing entry: ".toList ++ ip] }
      | some ndnss =>
        let ndnsstr := join " ".toList (slicesSort ndnss)
        let svcm := st.svcm.delete ip
        if odnsstr = ndnsstr then
          some { st with ls := st.ls ++ [l], svcm := svcm }
        else
          some { ls := st.ls ++ [sprintfLine ip ndnsstr m.key], svcm := svcm,
                 events := st.events ++
                   ["updating entry: ".toList ++ ip ++ " (".toList ++ ndnsstr ++ ")".toList] }
    | _ => none

/-- The first loop of `updateHostsFile`, over the lines of the file. -/
def walkLines (m : Manager) : List Str → WalkState → Option WalkState
  | [], st => some st
  | l :: rest, st =>
    match walkLine m st l with
    | none => none
    | some st1 => walkLines m rest st1

/-- One iteration of the second loop of `updateHostsFile`. -/
def addStep (m : Manager) (st : WalkState) (e : Str × List Str) : WalkState :=
  let dnsstr := join " ".toList (slicesSort e.2)
  { st with ls := st.ls ++ [sprintfLine e.1 dnsstr m.key],
            events := st.events ++
              ["adding entry: ".toList ++ e.1 ++ " (".toList ++ dnsstr ++ ")".toList] }

/-- The lines that `updateHostsFile` joins into the new content, with the events logged:
the walk over the lines of the current content, then one line for each entry left. -/
def reconcileState (m : Manager) (ro : RangeOrder) (h : Str) (svcm : GoMap (List Str)) :
    Option WalkState :=
  match walkLines m (split '\n' h) { ls := [], svcm := svcm, events := [] } with
  | none => none
  | some st => some ((ro.order 0 st.svcm).foldl (addStep m) st)

/-- The lines that `updateHostsFile` joins into the new content. -/
def reconcileLines (m : Manager) (ro : RangeOrder) (h : Str) (svcm : GoMap (List Str)) :
    Option (List Str) :=
  (reconcileState m ro h svcm).map (fun st => st.ls)

/-- The new content that `updateHostsFile` computes from the current content. -/
def reconcile (m : Manager) (ro : RangeOrder) (h : Str) (svcm : GoMap (List Str)) :
    Option Str :=
  (reconcileLines m ro h svcm).map (join ['\n'])

/-- The outcome of `os.ReadFile` on the hosts file. -/
inductive ReadResult where
  | ok (hb : Str)
  | notExist (err : GoError)
  | failed (err : GoError)

/-- What a finished call of `updateHostsFile` leaves: the error returned and the content
handed to `os.WriteFile`, if the call got that far. -/
structure UpdateResult where
  err : Option GoError
  written : Option Str
  deriving DecidableEq

/-- The method `updateHostsFile`, given the outcome of the read and of the write; `none`
when the call panics. -/
def updateHostsFile (m : Manager) (ro : RangeOrder) (rd : ReadResult)
    (wr : Option GoError) (svcm : GoMap (List Str)) : Option UpdateResult :=
  match rd with
  | .failed err => some { err := some err, written := none }
  | .notExist _ =>
    (reconcile m ro [] svcm).map (fun d => { err := wr, written := some d })
  | .ok hb =>
    (reconcile m ro hb svcm).map (fun d => { err := wr, written := some d })

/-! ### The tick and the run loop -/

/-- What the environment answers during one tick. -/
structure TickEnv where
  /-- The failure of `createClient`, if any. -/
  client : Option GoError
  /-- The outcome of the cluster query. -/
  listed : Except GoError (List Service)
  /-- The outcome of reading the hosts file. -/
  read : ReadResult
  /-- The failure of writing the hosts file, if any. -/
  write : Option GoError
  /-- The order of the map visits of this tick. -/
  ro : RangeOrder

/-- The method `tick`: the error returned; `none` when the tick panics. -/
def tick (m : Manager) (env : TickEnv) : Option (Option GoError) :=
  match env.client with
  | some err => some (some err)
  | none =>
    match getExportedServices env.listed with
    | .error err => some (some err)
    | .ok svcs =>
      let svcm := processServices env.ro svcs
      match updateHostsFile m env.ro env.read env.write svcm with
      | none => none
      | some r => some r.err

/-- How the run loop ends. -/
inductive LoopOutcome where
  /-- The loop returned, with this error. -/
  | returned (err : Option GoError)
  /-- A tick panicked. -/
  | panicked
  /-- The loop is still iterating after the iterations observed. -/
  | running

/-- The method `loop` over the iterations observed: for each, whether the context is
found cancelled, and what the environment answers to the tick. -/
def loop (m : Manager) : List (Bool × TickEnv) → LoopOutcome
  | [] => .running
  | (cncl, env) :: rest =>
    if cncl then .returned none
    else
      match tick m env with
      | none => .panicked
      | some err =>
        match (handleError m err).1 with
        | some e => .returned (some e)
        | none => loop m rest

/-! ## The vocabulary of the properties -/

/-- A line carries the marker: after trimming it ends in the marker. -/
def isManaged (m : Manager) (l : Str) : Bool := hasSuffix (trimSpace l) m.key

/-- The tab-delimited fields of a line, after trimming. -/
def fields (l : Str) : List Str := split '\t' (trimSpace l)

/-- The lines that do not carry the marker, in order. -/
def unmanagedLines (m : Manager) (ls : List Str) : List Str :=
  ls.filter (fun l => !isManaged m l)

/-- The tab-delimited field 0 of a line, after trimming (a split always has a field 0). -/
def field0 (l : Str) : Str := (fields l).headD []

/-- The field 0 of every line that carries the marker, in order. -/
def managedAddrs (m : Manager) (ls : List Str) : List Str :=
  (ls.filter (isManaged m)).map field0

/-- The canonical serialisation of the names of an address: sorted ascending and joined
by single spaces. -/
def canonicalNames (names : List Str) : Str := join [' '] (slicesSort names)

/-- A field of a fresh managed line is read back as written: it holds no tab and no
newline. -/
def fieldSafe (s : Str) : Prop := '\t' ∉ s ∧ '\n' ∉ s

/-- A string is not empty and does not start with white space. -/
def startsPlain : Str → Bool
  | [] => false
  | c :: _ => !isSpace c

/-- An address is read back as written from a fresh managed line: it is not empty, does
not start with white space, and holds no tab and no newline. -/
def addrSafe (a : Str) : Prop := startsPlain a = true ∧ fieldSafe a

/-- A string is not empty and holds no white space. -/
def noSpace (s : Str) : Prop := s ≠ [] ∧ ∀ c ∈ s, isSpace c = false

/-- A line serves an entry of the mapping: its field 0 is the address of the entry and
its field 1 is the canonical serialisation of the names of the entry. -/
def serves (svcm : GoMap (List Str)) (l : Str) : Prop :=
  ∃ ip names rest, fields l = ip :: canonicalNames names :: rest ∧ (ip, names) ∈ svcm

/-- The course of the first loop of `updateHostsFile` from a mapping over some lines: the
lines emitted and the entries left. A line without the marker is kept; a line with the
marker is dropped when its address is not in the mapping, and otherwise is kept when its
names are the canonical ones, or replaced by a fresh line, the entry being consumed. -/
inductive Walk (o : Opts) : GoMap (List Str) → List Str → List Str → GoMap (List Str) → Prop
  | done (svcm : GoMap (List Str)) : Walk o svcm [] [] svcm
  | keep (svcm svcm1 : GoMap (List Str)) (l : Str) (rest em : List Str)
      (hl : isManaged (New o) l = false) (hw : Walk o svcm rest em svcm1) :
      Walk o svcm (l :: rest) (l :: em) svcm1
  | drop (svcm svcm1 : GoMap (List Str)) (l : Str) (rest em : List Str) (ip od : Str)
      (fs : List Str) (hl : isManaged (New o) l = true) (hf : fields l = ip :: od :: fs)
      (hg : svcm.get ip = none) (hw : Walk o svcm rest em svcm1) :
      Walk o svcm (l :: rest) em svcm1
  | hit (svcm svcm1 : GoMap (List Str)) (l e : Str) (rest em : List Str) (ip od : Str)
      (fs names : List Str) (hl : isManaged (New o) l = true)
      (hf : fields l = ip :: od :: fs) (hg : svcm.get ip = some names)
      (he : (od = canonicalNames names ∧ e = l) ∨
        e = sprintfLine ip (canonicalNames names) markerKey)
      (hw : Walk o (svcm.delete ip) rest em svcm1) :
      Walk o svcm (l :: rest) (e :: em) svcm1

/-- The fresh managed lines of some entries, one for each, in order. -/
def freshLines (entries : GoMap (List Str)) : List Str :=
  entries.map (fun e => sprintfLine e.1 (canonicalNames e.2) markerKey)

/-- The entries of the mapping that match no managed line of the content: those whose
address is the field 0 of no line of the content that carries the marker. -/
def unmatched (m : Manager) (h : Str) (svcm : GoMap (List Str)) : GoMap (List Str) :=
  svcm.filter (fun e => decide (e.1 ∉ managedAddrs m (split '\n' h)))

/-- No address and no name of the mapping holds a newline. -/
def newlineFree (svcm : GoMap (List Str)) : Prop :=
  ∀ e ∈ svcm, '\n' ∉ e.1 ∧ ∀ n ∈ e.2, '\n' ∉ n

/-- The addresses and names of the mapping are read back as written from a fresh managed
line: no tab and no newline in them, and every address starts with a character that is
not white space. -/
def safeMapping (svcm : GoMap (List Str)) : Prop :=
  ∀ e ∈ svcm, addrSafe e.1 ∧ ∀ n ∈ e.2, fieldSafe n

/-- The addresses and names of the mapping are non-empty and hold no white space. -/
def plainMapping (svcm : GoMap (List Str)) : Prop :=
  ∀ e ∈ svcm, noSpace e.1 ∧ ∀ n ∈ e.2, noSpace n

instance (s : Str) : Decidable (fieldSafe s) :=
  inferInstanceAs (Decidable ('\t' ∉ s ∧ '\n' ∉ s))

instance (a : Str) : Decidable (addrSafe a) :=
  inferInstanceAs (Decidable (startsPlain a = true ∧ fieldSafe a))

instance (s : Str) : Decidable (noSpace s) :=
  inferInstanceAs (Decidable (s ≠ [] ∧ ∀ c ∈ s, isSpace c = false))

instance (svcm : GoMap (List Str)) : Decidable (newlineFree svcm) :=
  inferInstanceAs (Decidable (∀ e ∈ svcm, '\n' ∉ e.1 ∧ ∀ n ∈ e.2, '\n' ∉ n))

instance (svcm : GoMap (List Str)) : Decidable (safeMapping svcm) :=
  inferInstanceAs (Decidable (∀ e ∈ svcm, addrSafe e.1 ∧ ∀ n ∈ e.2, fieldSafe n))

instance (svcm : GoMap (List Str)) : Decidable (plainMapping svcm) :=
  inferInstanceAs (Decidable (∀ e ∈ svcm, noSpace e.1 ∧ ∀ n ∈ e.2, noSpace n))

/-- A record is exported: its declared type is `LoadBalancer` and it has an ingress
entry. -/
def eligible (svc : Service) : Bool :=
  decide (svc.SpecType = "LoadBalancer".toList) && !svc.Ingress.isEmpty

/-- The candidate of a record: the name `<service-name>.<namespace>.svc` and the address
of the first ingress entry. -/
def candidate (svc : Service) : service :=
  { dns := svc.Name ++ ".".toList ++ svc.Namespace ++ ".svc".toList,
    ip := (svc.Ingress.head?.map (fun ing => ing.IP)).getD [] }

/-- The candidates of a service list as the contract of the extractor words them: one
for each exported record, in the order of the list. -/
def exportedSpec (items : List Service) : List service :=
  (items.filter eligible).map candidate

/-- The error that `handleError` builds from the error of a tick. -/
def wrapped (e : GoError) : GoError :=
  GoError.wrapf "error building k8s rest config: ".toList e

/-- What the first loop of `processServices` holds of the services grouped so far: each
address is held once; an address without a group has no service; the group of an address
holds, once each, the names of the services of the address, and is not empty. -/
def Grouped (svcs : List service) (ipm : GoMap (GoMap Bool)) : Prop :=
  (GoMap.keys ipm).Nodup ∧
  ∀ ip, (ipm.get ip = none → ∀ s ∈ svcs, s.ip ≠ ip) ∧
    ∀ dnsm, ipm.get ip = some dnsm →
      (GoMap.keys dnsm).Nodup ∧ dnsm ≠ [] ∧
        ∀ d, d ∈ GoMap.keys dnsm ↔ ({ dns := d, ip := ip } : service) ∈ svcs

/-! ## Sample inputs -/

/-- A hosts file with a foreign line and a managed line for `10.0.0.2`. -/
def sampleHosts : Str :=
  "127.0.0.1\tlocalhost\n10.0.0.2\tb.ns.svc\t# lb-hosts-manager".toList

/-- A mapping of the address `10.0.0.1` to two names. -/
def sampleMapping : GoMap (List Str) :=
  [("10.0.0.1".toList, ["b.ns.svc".toList, "a.ns.svc".toList])]

/-- The content that reconciling `sampleMapping` against `sampleHosts` gives. -/
def sampleContent : Str :=
  "127.0.0.1\tlocalhost\n10.0.0.1\ta.ns.svc b.ns.svc\t# lb-hosts-manager".toList

/-- A hosts file that holds one managed line and nothing else. -/
def managedOnlyHosts : Str := "10.0.0.2\tb.ns.svc\t# lb-hosts-manager".toList

/-- A mapping of two addresses. -/
def twoAddresses : GoMap (List Str) :=
  [("10.0.0.1".toList, ["a.ns.svc".toList]), ("10.0.0.2".toList, ["b.ns.svc".toList])]

/-- Three candidates of one address, two of them the same. -/
def sampleCandidates : List service :=
  [{ dns := "svc-b.ns.svc".toList, ip := "10.0.0.5".toList },
   { dns := "svc-a.ns.svc".toList, ip := "10.0.0.5".toList },
   { dns := "svc-b.ns.svc".toList, ip := "10.0.0.5".toList }]

/-- A tick whose client cannot be built. -/
def failingTick : TickEnv :=
  { client := some (GoError.msg "no kubeconfig".toList), listed := .ok [],
    read := .ok [], write := none, ro := RangeOrder.forward }

/-! ## Facts about the string functions -/

theorem split_ne_nil (sep : Char) (s : Str) : split sep s ≠ [] := by
  induction s with
  | nil => simp [split]
  | cons c cs ih =>
    unfold split
    split_ifs
    · simp
    · cases h : split sep cs <;> simp

theorem split_no_sep (sep : Char) (s : Str) : ∀ f ∈ split sep s, sep ∉ f := by
  induction s with
  | nil => simp [split]
  | cons c cs ih =>
    unfold split
    split_ifs with hc
    · intro f hf
      rcases List.mem_cons.1 hf with rfl | hf
      · simp
      · exact ih f hf
    · cases h : split sep cs with
      | nil => exact absurd h (split_ne_nil sep cs)
      | cons f0 fs =>
        rw [h] at ih
        intro f hf
        rcases List.mem_cons.1 hf with rfl | hf
        · intro hmem
          rcases List.mem_cons.1 hmem with rfl | hmem
          · exact hc rfl
          · exact ih f0 (List.mem_cons_self _ _) hmem
        · exact ih f (List.mem_cons_of_mem _ hf)

theorem split_cons_sep (sep : Char) (cs : Str) :
    split sep (sep :: cs) = [] :: split sep cs := by
  rw [split]; simp

theorem split_cons_ne (sep c : Char) (cs f : Str) (fs : List Str) (hc : c ≠ sep)
    (h : split sep cs = f :: fs) : split sep (c :: cs) = (c :: f) :: fs := by
  rw [split, if_neg hc, h]

theorem split_of_not_mem (sep : Char) (a : Str) (ha : sep ∉ a) : split sep a = [a] := by
  induction a with
  | nil => simp [split]
  | cons c cs ih =>
    have hc : c ≠ sep := fun h => ha (by simp [h])
    have hcs : sep ∉ cs := fun h => ha (List.mem_cons_of_mem _ h)
    exact split_cons_ne sep c cs cs [] hc (ih hcs)

theorem split_append_sep (sep : Char) (a b : Str) (ha : sep ∉ a) :
    split sep (a ++ sep :: b) = a :: split sep b := by
  induction a with
  | nil => exact split_cons_sep sep b
  | cons c cs ih =>
    have hc : c ≠ sep := fun h => ha (by simp [h])
    have hcs : sep ∉ cs := fun h => ha (List.mem_cons_of_mem _ h)
    exact split_cons_ne sep c (cs ++ sep :: b) cs (split sep b) hc (ih hcs)

theorem join_split (sep : Char) (s : Str) : join [sep] (split sep s) = s := by
  induction s with
  | nil => simp [split, join]
  | cons c cs ih =>
    unfold split
    split_ifs with hc
    · cases h : split sep cs with
      | nil => exact absurd h (split_ne_nil sep cs)
      | cons f0 fs =>
        rw [h] at ih
        simp [join, ih, hc]
    · cases h : split sep cs with
      | nil => exact absurd h (split_ne_nil sep cs)
      | cons f0 fs =>
        rw [h] at ih
        cases fs with
        | nil => simpa [join] using ih
        | cons f1 fs => simp only [join] at ih ⊢; simp [← ih]

theorem split_join (sep : Char) (ls : List Str) (hne : ls ≠ [])
    (hls : ∀ l ∈ ls, sep ∉ l) : split sep (join [sep] ls) = ls := by
  induction ls with
  | nil => exact absurd rfl hne
  | cons a rest ih =>
    cases rest with
    | nil => simpa [join] using split_of_not_mem sep a (hls a (List.mem_cons_self _ _))
    | cons b rest =>
      have h1 := ih (by simp) (fun l hl => hls l (List.mem_cons_of_mem _ hl))
      have h2 : join [sep] (a :: b :: rest) = a ++ sep :: join [sep] (b :: rest) := by
        simp [join]
      rw [h2, split_append_sep sep a _ (hls a (List.mem_cons_self _ _)), h1]

theorem not_mem_join (c : Char) (sep : Str) (hsep : c ∉ sep) (ls : List Str)
    (hls : ∀ l ∈ ls, c ∉ l) : c ∉ join sep ls := by
  induction ls with
  | nil => simp [join]
  | cons a rest ih =>
    cases rest with
    | nil => simpa [join] using hls a (List.mem_cons_self _ _)
    | cons b rest =>
      have h1 := ih (fun l hl => hls l (List.mem_cons_of_mem _ hl))
      simp only [join, List.mem_append, not_or]
      exact ⟨⟨hls a (List.mem_cons_self _ _), hsep⟩, h1⟩

theorem hasSuffix_iff (s k : Str) : hasSuffix s k = true ↔ ∃ p, s = p ++ k := by
  unfold hasSuffix
  rw [List.isPrefixOf_iff_prefix, List.reverse_prefix]
  constructor
  · rintro ⟨p, hp⟩; exact ⟨p, hp.symm⟩
  · rintro ⟨p, hp⟩; exact ⟨p, hp.symm⟩

theorem dropWhile_append_stop (p : Char → Bool) (x : Str) (k : Char) (ks : Str)
    (hk : p k = false) : (x ++ k :: ks).dropWhile p = x.dropWhile p ++ k :: ks := by
  induction x with
  | nil => simp [List.dropWhile, hk]
  | cons c cs ih =>
    by_cases hc : p c = true
    · simp [List.dropWhile, hc, ih]
    · simp [List.dropWhile, hc]

theorem trimSpace_sublist (s : Str) : (trimSpace s).Sublist s := by
  unfold trimSpace
  have h1 : ((s.dropWhile isSpace).reverse.dropWhile isSpace).Sublist
      (s.dropWhile isSpace).reverse := List.dropWhile_sublist _
  have h2 := List.reverse_sublist.2 h1
  rw [List.reverse_reverse] at h2
  exact h2.trans (List.dropWhile_sublist _)

theorem trimSpace_head (s : Str) (c : Char) (t : Str) (h : trimSpace s = c :: t) :
    isSpace c = false := by
  unfold trimSpace at h
  have hsuf : ((s.dropWhile isSpace).reverse.dropWhile isSpace) <:+
      (s.dropWhile isSpace).reverse := List.dropWhile_suffix _
  have hpre := List.reverse_prefix.2 hsuf
  rw [List.reverse_reverse, h] at hpre
  obtain ⟨r, hr⟩ := hpre
  cases hd : s.dropWhile isSpace with
  | nil => rw [hd] at hr; simp at hr
  | cons d ds =>
    rw [hd] at hr
    have hcd : c = d := by simpa using congrArg List.head? hr
    have := List.head_dropWhile_not isSpace s (by rw [hd]; simp)
    simp only [hd, List.head_cons] at this
    rw [hcd]; simpa using this


theorem markerKey_eq : markerKey = '#' :: markerKey.tail := rfl

theorem markerKey_reverse : markerKey.reverse = 'r' :: markerKey.reverse.tail := rfl

theorem tab_not_mem_markerKey : '\t' ∉ markerKey := by decide

theorem newline_not_mem_markerKey : '\n' ∉ markerKey := by decide

theorem trimSpace_append_key (x : Str) :
    trimSpace (x ++ markerKey) = x.dropWhile isSpace ++ markerKey := by
  unfold trimSpace
  rw [markerKey_eq, dropWhile_append_stop isSpace x '#' _ (by decide), ← markerKey_eq,
    List.reverse_append, markerKey_reverse, List.cons_append, List.dropWhile_cons_of_neg
      (by decide), ← List.cons_append, ← markerKey_reverse, ← List.reverse_append,
    List.reverse_reverse]

theorem sprintfLine_eq (ip d : Str) :
    sprintfLine ip d markerKey = (ip ++ ['\t'] ++ d ++ ['\t']) ++ markerKey := rfl

theorem sprintfLine_eq_cons (ip d key : Str) :
    sprintfLine ip d key = ip ++ '\t' :: (d ++ '\t' :: key) := by
  simp [sprintfLine]

theorem isManaged_sprintfLine (o : Opts) (ip d : Str) :
    isManaged (New o) (sprintfLine ip d markerKey) = true := by
  unfold isManaged
  rw [sprintfLine_eq, trimSpace_append_key, hasSuffix_iff]
  exact ⟨_, rfl⟩

theorem trimSpace_sprintfLine (ip d : Str) (c : Char) (t : Str) (hip : ip = c :: t)
    (hc : isSpace c = false) :
    trimSpace (sprintfLine ip d markerKey) = sprintfLine ip d markerKey := by
  rw [sprintfLine_eq, trimSpace_append_key]
  subst hip
  simp only [List.cons_append]
  rw [List.dropWhile_cons_of_neg (by simp [hc])]
  rfl

theorem fields_sprintfLine (ip d : Str) (c : Char) (t : Str) (hip : ip = c :: t)
    (hc : isSpace c = false) (hi : '\t' ∉ ip) (hd : '\t' ∉ d) :
    fields (sprintfLine ip d markerKey) = [ip, d, markerKey] := by
  unfold fields
  rw [trimSpace_sprintfLine ip d c t hip hc]
  rw [sprintfLine_eq_cons, split_append_sep _ ip _ hi, split_append_sep _ d _ hd,
    split_of_not_mem _ _ tab_not_mem_markerKey]

theorem head_fields_sprintfLine (ip d : Str) (c : Char) (t : Str) (hip : ip = c :: t)
    (hc : isSpace c = false) (hi : '\t' ∉ ip) :
    field0 (sprintfLine ip d markerKey) = ip := by
  unfold field0 fields
  rw [trimSpace_sprintfLine ip d c t hip hc]
  rw [sprintfLine_eq_cons, split_append_sep _ ip _ hi]
  rfl

/-! ## Facts about Go maps -/

namespace GoMap

theorem get_some_mem {α : Type} (m : GoMap α) (k : Str) (v : α) (h : get m k = some v) :
    (k, v) ∈ m := by
  induction m with
  | nil => simp [get] at h
  | cons e rest ih =>
    obtain ⟨k1, v1⟩ := e
    unfold get at h
    split_ifs at h with hk
    · simp only [Option.some.injEq] at h
      subst hk; subst h
      exact List.mem_cons_self _ _
    · exact List.mem_cons_of_mem _ (ih h)

theorem get_cons_eq {α : Type} (k : Str) (v : α) (rest : GoMap α) :
    get ((k, v) :: rest) k = some v := by
  simp [get]

theorem get_cons_ne {α : Type} (k1 k : Str) (v : α) (rest : GoMap α) (h : k1 ≠ k) :
    get ((k1, v) :: rest) k = get rest k := by
  simp [get, h]

theorem get_none_iff {α : Type} (m : GoMap α) (k : Str) : get m k = none ↔ k ∉ keys m := by
  induction m with
  | nil => simp [get, keys]
  | cons e rest ih =>
    obtain ⟨k1, v1⟩ := e
    have hkeys : keys ((k1, v1) :: rest) = k1 :: keys rest := rfl
    by_cases hk : k1 = k
    · subst hk
      rw [get_cons_eq, hkeys]
      simp
    · rw [get_cons_ne k1 k v1 rest hk, ih, hkeys]
      simp only [List.mem_cons, not_or]
      constructor
      · intro h; exact ⟨fun h2 => hk h2.symm, h⟩
      · intro h; exact h.2

theorem mem_get {α : Type} (m : GoMap α) (hnd : (keys m).Nodup) (k : Str) (v : α)
    (h : (k, v) ∈ m) : get m k = some v := by
  induction m with
  | nil => simp at h
  | cons e rest ih =>
    obtain ⟨k1, v1⟩ := e
    simp only [keys, List.map_cons, List.nodup_cons] at hnd
    unfold get
    rcases List.mem_cons.1 h with heq | hmem
    · simp only [Prod.mk.injEq] at heq
      simp [heq.1, heq.2]
    · have hk : k1 ≠ k := by
        rintro rfl
        exact hnd.1 (List.mem_map.2 ⟨(k1, v), hmem, rfl⟩)
      rw [if_neg hk]
      exact ih hnd.2 hmem

theorem delete_sublist {α : Type} (m : GoMap α) (k : Str) : (delete m k).Sublist m :=
  List.filter_sublist _

theorem keys_sublist {α : Type} (m1 m2 : GoMap α) (h : m1.Sublist m2) :
    (keys m1).Sublist (keys m2) := h.map _

theorem get_delete_ne {α : Type} (m : GoMap α) (k k2 : Str) (h : k2 ≠ k) :
    get (delete m k) k2 = get m k2 := by
  induction m with
  | nil => rfl
  | cons e rest ih =>
    obtain ⟨k1, v1⟩ := e
    by_cases hk : k1 = k
    · have : delete ((k1, v1) :: rest) k = delete rest k := by
        simp [delete, hk]
      rw [this, ih]
      have hne : k1 ≠ k2 := by rw [hk]; exact fun h2 => h h2.symm
      simp [get, hne]
    · have : delete ((k1, v1) :: rest) k = (k1, v1) :: delete rest k := by
        simp [delete, hk]
      rw [this]
      by_cases hk2 : k1 = k2
      · simp [get, hk2]
      · simp [get, hk2, ih]

theorem delete_of_not_mem {α : Type} (m : GoMap α) (k : Str) (hk : k ∉ keys m) :
    delete m k = m := by
  unfold delete
  rw [List.filter_eq_self]
  intro e he
  have : e.1 ≠ k := by
    rintro rfl
    exact hk (List.mem_map.2 ⟨e, he, rfl⟩)
  simp [this]

theorem delete_cons_eq {α : Type} (k : Str) (v : α) (rest : GoMap α) :
    delete ((k, v) :: rest) k = delete rest k := by
  simp [delete]

theorem delete_cons_ne {α : Type} (k1 k : Str) (v : α) (rest : GoMap α) (h : k1 ≠ k) :
    delete ((k1, v) :: rest) k = (k1, v) :: delete rest k := by
  simp [delete, h]

theorem keys_delete_perm {α : Type} (m : GoMap α) (hnd : (keys m).Nodup) (k : Str)
    (hk : k ∈ keys m) : (k :: keys (delete m k)).Perm (keys m) := by
  induction m with
  | nil => simp [keys] at hk
  | cons e rest ih =>
    obtain ⟨k1, v1⟩ := e
    have hnd2 : k1 ∉ keys rest ∧ (keys rest).Nodup := by
      simpa only [keys, List.map_cons, List.nodup_cons] using hnd
    by_cases hk1 : k1 = k
    · subst hk1
      rw [delete_cons_eq, delete_of_not_mem rest k1 hnd2.1]
      exact List.Perm.refl _
    · have hk2 : k ∈ keys rest := by
        have : k = k1 ∨ k ∈ keys rest := by
          simpa only [keys, List.map_cons, List.mem_cons] using hk
        rcases this with h | h
        · exact absurd h.symm hk1
        · exact h
      rw [delete_cons_ne k1 k v1 rest hk1]
      exact (List.Perm.swap k1 k _).trans ((ih hnd2.2 hk2).cons k1)

end GoMap

/-! ## One line of the walk -/

theorem walkLine_cases (o : Opts) (st st1 : WalkState) (l : Str)
    (h : walkLine (New o) st l = some st1) :
    (isManaged (New o) l = false ∧ st1.ls = st.ls ++ [l] ∧ st1.svcm = st.svcm) ∨
    (isManaged (New o) l = true ∧ ∃ ip od rest, fields l = ip :: od :: rest ∧
      ((st.svcm.get ip = none ∧ st1.ls = st.ls ∧ st1.svcm = st.svcm) ∨
       (∃ names, st.svcm.get ip = some names ∧ st1.svcm = st.svcm.delete ip ∧
          ((od = canonicalNames names ∧ st1.ls = st.ls ++ [l]) ∨
           st1.ls = st.ls ++ [sprintfLine ip (canonicalNames names) markerKey])))) := by
  unfold walkLine at h
  simp only at h
  by_cases hm : hasSuffix (trimSpace l) (New o).key = true
  · right
    refine ⟨hm, ?_⟩
    simp only [hm, Bool.not_true, Bool.false_eq_true, if_false] at h
    cases hs : split '\t' (trimSpace l) with
    | nil => rw [hs] at h; simp at h
    | cons ip r1 =>
      cases r1 with
      | nil => rw [hs] at h; simp at h
      | cons od rest =>
        rw [hs] at h
        simp only at h
        refine ⟨ip, od, rest, hs, ?_⟩
        cases hg : st.svcm.get ip with
        | none =>
          rw [hg] at h
          simp only [Option.some.injEq] at h
          left
          subst h
          exact ⟨rfl, rfl, rfl⟩
        | some names =>
          rw [hg] at h
          right
          refine ⟨names, rfl, ?_⟩
          simp only at h
          split_ifs at h with heq
          · simp only [Option.some.injEq] at h
            subst h
            exact ⟨rfl, Or.inl ⟨heq, rfl⟩⟩
          · simp only [Option.some.injEq] at h
            subst h
            exact ⟨rfl, Or.inr rfl⟩
  · left
    simp only [Bool.not_eq_true] at hm
    simp only [hm, Bool.not_false, if_true, Option.some.injEq] at h
    subst h
    exact ⟨hm, rfl, rfl⟩


/-! ## The walk over the lines -/

theorem walkLines_walk (o : Opts) (lines : List Str) :
    ∀ st st1 : WalkState, walkLines (New o) lines st = some st1 →
      ∃ em, st1.ls = st.ls ++ em ∧ Walk o st.svcm lines em st1.svcm := by
  induction lines with
  | nil =>
    intro st st1 h
    simp only [walkLines, Option.some.injEq] at h
    subst h
    exact ⟨[], by simp, Walk.done _⟩
  | cons l rest ih =>
    intro st st1 h
    unfold walkLines at h
    cases h0 : walkLine (New o) st l with
    | none => rw [h0] at h; simp at h
    | some st0 =>
      rw [h0] at h
      simp only at h
      obtain ⟨em, hem, hw⟩ := ih st0 st1 h
      rcases walkLine_cases o st st0 l h0 with ⟨hl, hls, hs⟩ | ⟨hl, ip, od, fs, hf, hc⟩
      · refine ⟨l :: em, ?_, ?_⟩
        · rw [hem, hls]; simp
        · rw [hs] at hw
          exact Walk.keep _ _ l rest em hl hw
      · rcases hc with ⟨hg, hls, hs⟩ | ⟨names, hg, hs, hc2⟩
        · refine ⟨em, ?_, ?_⟩
          · rw [hem, hls]
          · rw [hs] at hw
            exact Walk.drop _ _ l rest em ip od fs hl hf hg hw
        · rw [hs] at hw
          rcases hc2 with ⟨hod, hls⟩ | hls
          · refine ⟨l :: em, ?_, ?_⟩
            · rw [hem, hls]; simp
            · exact Walk.hit _ _ l l rest em ip od fs names hl hf hg (Or.inl ⟨hod, rfl⟩) hw
          · refine ⟨sprintfLine ip (canonicalNames names) markerKey :: em, ?_, ?_⟩
            · rw [hem, hls]; simp
            · exact Walk.hit _ _ l _ rest em ip od fs names hl hf hg (Or.inr rfl) hw

theorem split_mem_subset (sep : Char) (s : Str) :
    ∀ f ∈ split sep s, ∀ x ∈ f, x ∈ s := by
  induction s with
  | nil => simp [split]
  | cons c cs ih =>
    obtain ⟨f0, fs, h0⟩ : ∃ f0 fs, split sep cs = f0 :: fs := by
      cases h : split sep cs with
      | nil => exact absurd h (split_ne_nil sep cs)
      | cons f0 fs => exact ⟨f0, fs, rfl⟩
    rw [h0] at ih
    by_cases hc : c = sep
    · subst hc
      rw [split_cons_sep, h0]
      intro f hf x hx
      rcases List.mem_cons.1 hf with rfl | hf
      · simp at hx
      · exact List.mem_cons_of_mem _ (ih f hf x hx)
    · rw [split_cons_ne sep c cs f0 fs hc h0]
      intro f hf x hx
      rcases List.mem_cons.1 hf with rfl | hf
      · rcases List.mem_cons.1 hx with rfl | hx
        · exact List.mem_cons_self _ _
        · exact List.mem_cons_of_mem _ (ih f0 (List.mem_cons_self _ _) x hx)
      · exact List.mem_cons_of_mem _ (ih f (List.mem_cons_of_mem _ hf) x hx)

/-- The field 0 of a line that carries the marker starts with a character that is not
white space and holds no tab, and no newline when the line holds none. -/
theorem managed_field0 (o : Opts) (l ip : Str) (fs : List Str)
    (hl : isManaged (New o) l = true) (hf : fields l = ip :: fs) :
    (∃ c t, ip = c :: t ∧ isSpace c = false) ∧ '\t' ∉ ip ∧ ('\n' ∉ l → '\n' ∉ ip) := by
  unfold fields at hf
  have hmem : ip ∈ split '\t' (trimSpace l) := by rw [hf]; exact List.mem_cons_self _ _
  refine ⟨?_, split_no_sep _ _ ip hmem, ?_⟩
  · unfold isManaged at hl
    obtain ⟨p, hp⟩ := (hasSuffix_iff _ _).1 hl
    cases hts : trimSpace l with
    | nil =>
      rw [hts] at hp
      have : markerKey = [] := (List.append_eq_nil.1 hp.symm).2
      exact absurd this (by decide)
    | cons c t =>
      have hc := trimSpace_head l c t hts
      have hct : c ≠ '\t' := by
        rintro rfl
        exact absurd hc (by decide)
      rw [hts] at hf
      obtain ⟨f0, fs0, h0⟩ : ∃ f0 fs0, split '\t' t = f0 :: fs0 := by
        cases h : split '\t' t with
        | nil => exact absurd h (split_ne_nil _ t)
        | cons f0 fs0 => exact ⟨f0, fs0, rfl⟩
      rw [split_cons_ne '\t' c t f0 fs0 hct h0] at hf
      simp only [List.cons.injEq] at hf
      exact ⟨c, f0, hf.1.symm, hc⟩
  · intro hn hin
    exact hn ((trimSpace_sublist l).subset (split_mem_subset _ _ ip hmem _ hin))


theorem startsPlain_iff (a : Str) (h : startsPlain a = true) :
    ∃ c t, a = c :: t ∧ isSpace c = false := by
  cases a with
  | nil => exact absurd h (by decide)
  | cons c t => exact ⟨c, t, rfl, by simpa [startsPlain] using h⟩

theorem mem_slicesSort (names : List Str) (n : Str) : n ∈ slicesSort names ↔ n ∈ names :=
  (List.perm_insertionSort _ names).mem_iff

theorem tab_not_mem_canonicalNames (names : List Str) (h : ∀ n ∈ names, '\t' ∉ n) :
    '\t' ∉ canonicalNames names :=
  not_mem_join _ _ (by decide) _ (fun n hn => h n ((mem_slicesSort names n).1 hn))

theorem newline_not_mem_canonicalNames (names : List Str) (h : ∀ n ∈ names, '\n' ∉ n) :
    '\n' ∉ canonicalNames names :=
  not_mem_join _ _ (by decide) _ (fun n hn => h n ((mem_slicesSort names n).1 hn))

theorem newline_not_mem_sprintfLine (ip d : Str) (hi : '\n' ∉ ip) (hd : '\n' ∉ d) :
    '\n' ∉ sprintfLine ip d markerKey := by
  rw [sprintfLine_eq_cons]
  simp only [List.mem_append, List.mem_cons, not_or]
  exact ⟨hi, by decide, hd, by decide, newline_not_mem_markerKey⟩

theorem unmanagedLines_cons_false (m : Manager) (l : Str) (ls : List Str)
    (h : isManaged m l = false) : unmanagedLines m (l :: ls) = l :: unmanagedLines m ls := by
  simp [unmanagedLines, h]

theorem unmanagedLines_cons_true (m : Manager) (l : Str) (ls : List Str)
    (h : isManaged m l = true) : unmanagedLines m (l :: ls) = unmanagedLines m ls := by
  simp [unmanagedLines, h]

theorem managedAddrs_cons_false (m : Manager) (l : Str) (ls : List Str)
    (h : isManaged m l = false) : managedAddrs m (l :: ls) = managedAddrs m ls := by
  simp [managedAddrs, h]

theorem managedAddrs_cons_true (m : Manager) (l : Str) (ls : List Str)
    (h : isManaged m l = true) :
    managedAddrs m (l :: ls) = field0 l :: managedAddrs m ls := by
  simp [managedAddrs, h]

/-- What a walk emits for a line whose entry it consumes: a line with the marker, whose
field 0 is the address. -/
theorem walk_hit_line (o : Opts) (l e ip od : Str) (fs names : List Str)
    (hl : isManaged (New o) l = true) (hf : fields l = ip :: od :: fs)
    (he : (od = canonicalNames names ∧ e = l) ∨
      e = sprintfLine ip (canonicalNames names) markerKey) :
    isManaged (New o) e = true ∧ field0 e = ip := by
  obtain ⟨⟨c, t, hip, hc⟩, htab, _⟩ := managed_field0 o l ip (od :: fs) hl hf
  rcases he with ⟨_, rfl⟩ | rfl
  · exact ⟨hl, by unfold field0; rw [hf]; rfl⟩
  · exact ⟨isManaged_sprintfLine o _ _, head_fields_sprintfLine ip _ c t hip hc htab⟩

theorem walk_unmanaged (o : Opts) (svcm svcm1 : GoMap (List Str)) (lines em : List Str)
    (h : Walk o svcm lines em svcm1) :
    unmanagedLines (New o) em = unmanagedLines (New o) lines := by
  induction h with
  | done => rfl
  | keep svcm svcm1 l rest em hl _ ih =>
    rw [unmanagedLines_cons_false _ _ _ hl, unmanagedLines_cons_false _ _ _ hl, ih]
  | drop svcm svcm1 l rest em ip od fs hl _ _ _ ih =>
    rw [unmanagedLines_cons_true _ _ _ hl, ih]
  | hit svcm svcm1 l e rest em ip od fs names hl hf _ he _ ih =>
    rw [unmanagedLines_cons_true _ _ _ hl,
      unmanagedLines_cons_true _ _ _ (walk_hit_line o l e ip od fs names hl hf he).1, ih]

theorem walk_sublist (o : Opts) (svcm svcm1 : GoMap (List Str)) (lines em : List Str)
    (h : Walk o svcm lines em svcm1) : svcm1.Sublist svcm := by
  induction h with
  | done => exact List.Sublist.refl _
  | keep _ _ _ _ _ _ _ ih => exact ih
  | drop _ _ _ _ _ _ _ _ _ _ _ _ ih => exact ih
  | hit svcm _ _ _ _ _ ip _ _ _ _ _ _ _ _ ih => exact ih.trans (GoMap.delete_sublist svcm ip)

theorem walk_no_newline (o : Opts) (svcm svcm1 : GoMap (List Str)) (lines em : List Str)
    (h : Walk o svcm lines em svcm1) (hlines : ∀ l ∈ lines, '\n' ∉ l)
    (hnames : ∀ e ∈ svcm, ∀ n ∈ e.2, '\n' ∉ n) : ∀ e ∈ em, '\n' ∉ e := by
  induction h with
  | done => simp
  | keep svcm svcm1 l rest em hl _ ih =>
    intro e he
    rcases List.mem_cons.1 he with rfl | he
    · exact hlines _ (List.mem_cons_self _ _)
    · exact ih (fun l hl => hlines l (List.mem_cons_of_mem _ hl)) hnames e he
  | drop svcm svcm1 l rest em ip od fs hl _ _ _ ih =>
    exact ih (fun l hl => hlines l (List.mem_cons_of_mem _ hl)) hnames
  | hit svcm svcm1 l e rest em ip od fs names hl hf hg he _ ih =>
    intro x hx
    rcases List.mem_cons.1 hx with rfl | hx
    · rcases he with ⟨_, rfl⟩ | rfl
      · exact hlines _ (List.mem_cons_self _ _)
      · have hip := (managed_field0 o l ip (od :: fs) hl hf).2.2
          (hlines _ (List.mem_cons_self _ _))
        exact newline_not_mem_sprintfLine ip _ hip
          (newline_not_mem_canonicalNames names
            (hnames (ip, names) (GoMap.get_some_mem svcm ip names hg)))
    · exact ih (fun l hl => hlines l (List.mem_cons_of_mem _ hl))
        (fun e he => hnames e ((GoMap.delete_sublist svcm ip).subset he)) x hx

theorem walk_addrs (o : Opts) (svcm svcm1 : GoMap (List Str)) (lines em : List Str)
    (h : Walk o svcm lines em svcm1) (hnd : (GoMap.keys svcm).Nodup) :
    (managedAddrs (New o) em ++ GoMap.keys svcm1).Perm (GoMap.keys svcm) := by
  induction h with
  | done => exact List.Perm.refl _
  | keep svcm svcm1 l rest em hl _ ih =>
    rw [managedAddrs_cons_false _ _ _ hl]
    exact ih hnd
  | drop svcm svcm1 l rest em ip od fs hl _ _ _ ih => exact ih hnd
  | hit svcm svcm1 l e rest em ip od fs names hl hf hg he _ ih =>
    obtain ⟨hme, hfe⟩ := walk_hit_line o l e ip od fs names hl hf he
    rw [managedAddrs_cons_true _ _ _ hme, hfe, List.cons_append]
    have hnd1 : (GoMap.keys (svcm.delete ip)).Nodup :=
      hnd.sublist (GoMap.keys_sublist _ _ (GoMap.delete_sublist svcm ip))
    have hmem : ip ∈ GoMap.keys svcm := by
      by_contra hc
      rw [(GoMap.get_none_iff svcm ip).2 hc] at hg
      exact Option.noConfusion hg
    exact ((ih hnd1).cons ip).trans (GoMap.keys_delete_perm svcm hnd ip hmem)

theorem walk_addrs_mem (o : Opts) (svcm svcm1 : GoMap (List Str)) (lines em : List Str)
    (h : Walk o svcm lines em svcm1) :
    ∀ a ∈ managedAddrs (New o) em, a ∈ GoMap.keys svcm := by
  induction h with
  | done => intro a ha; exact absurd ha (List.not_mem_nil a)
  | keep svcm svcm1 l rest em hl _ ih =>
    rw [managedAddrs_cons_false _ _ _ hl]
    exact ih
  | drop svcm svcm1 l rest em ip od fs hl _ _ _ ih => exact ih
  | hit svcm svcm1 l e rest em ip od fs names hl hf hg he _ ih =>
    obtain ⟨hme, hfe⟩ := walk_hit_line o l e ip od fs names hl hf he
    rw [managedAddrs_cons_true _ _ _ hme, hfe]
    intro a ha
    rcases List.mem_cons.1 ha with rfl | ha
    · exact List.mem_map.2 ⟨(a, names), GoMap.get_some_mem svcm a names hg, rfl⟩
    · exact (GoMap.keys_sublist _ _ (GoMap.delete_sublist svcm ip)).subset (ih a ha)

theorem serves_mono (svcm svcm1 : GoMap (List Str)) (l : Str) (hsub : svcm1.Sublist svcm)
    (h : serves svcm1 l) : serves svcm l := by
  obtain ⟨ip, names, rest, hf, hm⟩ := h
  exact ⟨ip, names, rest, hf, hsub.subset hm⟩

theorem walk_serves (o : Opts) (svcm svcm1 : GoMap (List Str)) (lines em : List Str)
    (h : Walk o svcm lines em svcm1) (hnames : ∀ e ∈ svcm, ∀ n ∈ e.2, '\t' ∉ n) :
    ∀ e ∈ em, isManaged (New o) e = true → serves svcm e := by
  induction h with
  | done => simp
  | keep svcm svcm1 l rest em hl _ ih =>
    intro e he hme
    rcases List.mem_cons.1 he with rfl | he
    · rw [hl] at hme; exact Bool.noConfusion hme
    · exact ih hnames e he hme
  | drop svcm svcm1 l rest em ip od fs hl _ _ _ ih => exact ih hnames
  | hit svcm svcm1 l e rest em ip od fs names hl hf hg he _ ih =>
    intro x hx hmx
    rcases List.mem_cons.1 hx with rfl | hx
    · have hmem := GoMap.get_some_mem svcm ip names hg
      rcases he with ⟨hod, rfl⟩ | rfl
      · exact ⟨ip, names, fs, by rw [hf, hod], hmem⟩
      · obtain ⟨⟨c, t, hip, hc⟩, htab, _⟩ := managed_field0 o l ip (od :: fs) hl hf
        exact ⟨ip, names, [markerKey],
          fields_sprintfLine ip _ c t hip hc htab
            (tab_not_mem_canonicalNames names (hnames (ip, names) hmem)), hmem⟩
    · exact serves_mono svcm _ x (GoMap.delete_sublist svcm ip)
        (ih (fun e he => hnames e ((GoMap.delete_sublist svcm ip).subset he)) x hx hmx)


/-! ## The lines without the marker, for every mapping -/

theorem split_append (sep : Char) (a b : Str) :
    split sep (a ++ sep :: b) = split sep a ++ split sep b := by
  induction a with
  | nil => rw [List.nil_append, split_cons_sep]; rfl
  | cons c cs ih =>
    by_cases hc : c = sep
    · subst hc
      rw [List.cons_append, split_cons_sep, split_cons_sep, ih, List.cons_append]
    · obtain ⟨f, fs, hf⟩ : ∃ f fs, split sep cs = f :: fs := by
        cases h : split sep cs with
        | nil => exact absurd h (split_ne_nil sep cs)
        | cons f fs => exact ⟨f, fs, rfl⟩
      rw [List.cons_append, split_cons_ne sep c cs f fs hc hf,
        split_cons_ne sep c (cs ++ sep :: b) f (fs ++ split sep b) hc (by rw [ih, hf]; rfl)]
      rfl

theorem walk_unmanaged_mem (o : Opts) (svcm svcm1 : GoMap (List Str)) (lines em : List Str)
    (h : Walk o svcm lines em svcm1) :
    ∀ e ∈ em, isManaged (New o) e = false → e ∈ lines := by
  induction h with
  | done => intro e he; exact absurd he (List.not_mem_nil e)
  | keep svcm svcm1 l rest em hl _ ih =>
    intro e he hme
    rcases List.mem_cons.1 he with rfl | he
    · exact List.mem_cons_self _ _
    · exact List.mem_cons_of_mem _ (ih e he hme)
  | drop svcm svcm1 l rest em ip od fs hl _ _ _ ih =>
    intro e he hme
    exact List.mem_cons_of_mem _ (ih e he hme)
  | hit svcm svcm1 l e rest em ip od fs names hl hf _ he _ ih =>
    intro x hx hmx
    rcases List.mem_cons.1 hx with rfl | hx
    · rw [(walk_hit_line o l x ip od fs names hl hf he).1] at hmx
      exact Bool.noConfusion hmx
    · exact List.mem_cons_of_mem _ (ih x hx hmx)

/-- The entries that a walk leaves are the entries whose address is the field 0 of no
line with the marker. -/
theorem walk_left (o : Opts) (svcm svcm1 : GoMap (List Str)) (lines em : List Str)
    (h : Walk o svcm lines em svcm1) :
    svcm1 = svcm.filter (fun e => decide (e.1 ∉ managedAddrs (New o) lines)) := by
  induction h with
  | done =>
    rename_i svcm
    symm
    rw [List.filter_eq_self]
    intro e _
    simp [managedAddrs]
  | keep svcm svcm1 l rest em hl _ ih =>
    rw [managedAddrs_cons_false _ _ _ hl]
    exact ih
  | drop svcm svcm1 l rest em ip od fs hl hf hg _ ih =>
    have hf0 : field0 l = ip := by unfold field0; rw [hf]; rfl
    rw [managedAddrs_cons_true _ _ _ hl, hf0, ih]
    apply List.filter_congr
    intro e he
    have hne : e.1 ≠ ip := by
      intro heq
      exact (GoMap.get_none_iff svcm ip).1 hg (List.mem_map.2 ⟨e, he, heq⟩)
    simp [hne]
  | hit svcm svcm1 l e rest em ip od fs names hl hf _ _ _ ih =>
    have hf0 : field0 l = ip := by unfold field0; rw [hf]; rfl
    rw [managedAddrs_cons_true _ _ _ hl, hf0, ih]
    unfold GoMap.delete
    rw [List.filter_filter]
    apply List.filter_congr
    intro x _
    by_cases hx : x.1 = ip
    · simp [hx]
    · simp [hx]

theorem walk_none_emitted (o : Opts) (svcm svcm1 : GoMap (List Str)) (lines em : List Str)
    (h : Walk o svcm lines em svcm1) : em = [] → svcm1 = svcm := by
  induction h with
  | done => intro _; rfl
  | keep _ _ _ _ _ _ _ _ => intro h; exact List.noConfusion h
  | drop _ _ _ _ _ _ _ _ _ _ _ _ ih => exact ih
  | hit _ _ _ _ _ _ _ _ _ _ _ _ _ _ _ _ => intro h; exact List.noConfusion h

/-! ## The lines added after the walk -/

theorem foldl_addStep_ls (o : Opts) (entries : GoMap (List Str)) :
    ∀ st : WalkState, (entries.foldl (addStep (New o)) st).ls = st.ls ++ freshLines entries := by
  induction entries with
  | nil => intro st; simp [freshLines]
  | cons e rest ih =>
    intro st
    rw [List.foldl_cons, ih]
    simp [addStep, freshLines, canonicalNames, New]

theorem reconcileLines_walk (o : Opts) (ro : RangeOrder) (h : Str) (svcm : GoMap (List Str))
    (ls : List Str) (hr : reconcileLines (New o) ro h svcm = some ls) :
    ∃ em svcm1, Walk o svcm (split '\n' h) em svcm1 ∧
      ls = em ++ freshLines (ro.order 0 svcm1) := by
  unfold reconcileLines reconcileState at hr
  cases hw : walkLines (New o) (split '\n' h) { ls := [], svcm := svcm, events := [] } with
  | none => rw [hw] at hr; simp at hr
  | some st =>
    rw [hw] at hr
    simp only [Option.map_some', Option.some.injEq] at hr
    obtain ⟨em, hem, hwalk⟩ := walkLines_walk o _ _ st hw
    refine ⟨em, st.svcm, hwalk, ?_⟩
    rw [← hr, foldl_addStep_ls, hem]
    rfl

theorem unmanagedLines_append (m : Manager) (a b : List Str) :
    unmanagedLines m (a ++ b) = unmanagedLines m a ++ unmanagedLines m b := by
  simp [unmanagedLines]

theorem managedAddrs_append (m : Manager) (a b : List Str) :
    managedAddrs m (a ++ b) = managedAddrs m a ++ managedAddrs m b := by
  simp [managedAddrs]

theorem unmanagedLines_freshLines (o : Opts) (entries : GoMap (List Str)) :
    unmanagedLines (New o) (freshLines entries) = [] := by
  unfold unmanagedLines
  rw [List.filter_eq_nil_iff]
  intro l hl
  obtain ⟨e, _, rfl⟩ := List.mem_map.1 hl
  simp [isManaged_sprintfLine]

theorem managedAddrs_freshLines (o : Opts) (entries : GoMap (List Str))
    (haddr : ∀ e ∈ entries, addrSafe e.1) :
    managedAddrs (New o) (freshLines entries) = GoMap.keys entries := by
  induction entries with
  | nil => rfl
  | cons e rest ih =>
    obtain ⟨hsp, htab, _⟩ := haddr e (List.mem_cons_self _ _)
    obtain ⟨c, t, hip, hc⟩ := startsPlain_iff e.1 hsp
    have h1 : freshLines (e :: rest) =
        sprintfLine e.1 (canonicalNames e.2) markerKey :: freshLines rest := rfl
    rw [h1, managedAddrs_cons_true _ _ _ (isManaged_sprintfLine o _ _),
      head_fields_sprintfLine e.1 _ c t hip hc htab,
      ih (fun e he => haddr e (List.mem_cons_of_mem _ he))]
    rfl

theorem serves_freshLines (entries : GoMap (List Str))
    (haddr : ∀ e ∈ entries, addrSafe e.1) (hnames : ∀ e ∈ entries, ∀ n ∈ e.2, '\t' ∉ n) :
    ∀ l ∈ freshLines entries, serves entries l := by
  intro l hl
  obtain ⟨e, he, rfl⟩ := List.mem_map.1 hl
  obtain ⟨hsp, htab, _⟩ := haddr e he
  obtain ⟨c, t, hip, hc⟩ := startsPlain_iff e.1 hsp
  exact ⟨e.1, e.2, [markerKey],
    fields_sprintfLine e.1 _ c t hip hc htab (tab_not_mem_canonicalNames e.2 (hnames e he)),
    he⟩

theorem newline_not_mem_freshLines (entries : GoMap (List Str))
    (hnl : ∀ e ∈ entries, '\n' ∉ e.1 ∧ ∀ n ∈ e.2, '\n' ∉ n) :
    ∀ l ∈ freshLines entries, '\n' ∉ l := by
  intro l hl
  obtain ⟨e, he, rfl⟩ := List.mem_map.1 hl
  exact newline_not_mem_sprintfLine e.1 _ (hnl e he).1
    (newline_not_mem_canonicalNames e.2 (hnl e he).2)

/-! ## The lines that the reconciliation emits -/

theorem reconcileLines_unmanaged (o : Opts) (ro : RangeOrder) (h : Str)
    (svcm : GoMap (List Str)) (ls : List Str)
    (hr : reconcileLines (New o) ro h svcm = some ls) :
    unmanagedLines (New o) ls = unmanagedLines (New o) (split '\n' h) := by
  obtain ⟨em, svcm1, hw, rfl⟩ := reconcileLines_walk o ro h svcm ls hr
  rw [unmanagedLines_append, unmanagedLines_freshLines, List.append_nil,
    walk_unmanaged o svcm svcm1 _ em hw]

theorem reconcileLines_ne_nil (o : Opts) (ro : RangeOrder) (h : Str)
    (svcm : GoMap (List Str)) (ls : List Str)
    (hr : reconcileLines (New o) ro h svcm = some ls)
    (hne : unmanagedLines (New o) (split '\n' h) ≠ [] ∨ svcm ≠ []) : ls ≠ [] := by
  intro hnil
  rcases hne with hne | hne
  · apply hne
    rw [← reconcileLines_unmanaged o ro h svcm ls hr, hnil]
    rfl
  · obtain ⟨em, svcm1, hw, hls⟩ := reconcileLines_walk o ro h svcm ls hr
    rw [hnil] at hls
    obtain ⟨hem, hfresh⟩ := List.append_eq_nil.1 hls.symm
    have h1 : svcm1 = svcm := walk_none_emitted o svcm svcm1 _ em hw hem
    have h2 : ro.order 0 svcm1 = [] := by
      simpa [freshLines] using hfresh
    have h3 := ro.perm 0 svcm1
    rw [h2] at h3
    exact hne (h1 ▸ h3.symm.eq_nil)

theorem reconcileLines_no_newline (o : Opts) (ro : RangeOrder) (h : Str)
    (svcm : GoMap (List Str)) (ls : List Str)
    (hr : reconcileLines (New o) ro h svcm = some ls)
    (hnl : ∀ e ∈ svcm, '\n' ∉ e.1 ∧ ∀ n ∈ e.2, '\n' ∉ n) : ∀ l ∈ ls, '\n' ∉ l := by
  obtain ⟨em, svcm1, hw, rfl⟩ := reconcileLines_walk o ro h svcm ls hr
  intro l hl
  rcases List.mem_append.1 hl with hl | hl
  · exact walk_no_newline o svcm svcm1 _ em hw (split_no_sep _ _)
      (fun e he => (hnl e he).2) l hl
  · exact newline_not_mem_freshLines _
      (fun e he => hnl e ((walk_sublist o svcm svcm1 _ em hw).subset
        ((ro.perm 0 svcm1).subset he))) l hl

theorem reconcileLines_addrs (o : Opts) (ro : RangeOrder) (h : Str)
    (svcm : GoMap (List Str)) (ls : List Str)
    (hr : reconcileLines (New o) ro h svcm = some ls) (hnd : (GoMap.keys svcm).Nodup)
    (haddr : ∀ e ∈ svcm, addrSafe e.1) :
    (managedAddrs (New o) ls).Perm (GoMap.keys svcm) := by
  obtain ⟨em, svcm1, hw, rfl⟩ := reconcileLines_walk o ro h svcm ls hr
  have hsub := walk_sublist o svcm svcm1 _ em hw
  rw [managedAddrs_append, managedAddrs_freshLines o _
    (fun e he => haddr e (hsub.subset ((ro.perm 0 svcm1).subset he)))]
  have hp : (GoMap.keys (ro.order 0 svcm1)).Perm (GoMap.keys svcm1) :=
    (ro.perm 0 svcm1).map _
  exact (hp.append_left _).trans (walk_addrs o svcm svcm1 _ em hw hnd)

theorem reconcileLines_addrs_mem (o : Opts) (ro : RangeOrder) (h : Str)
    (svcm : GoMap (List Str)) (ls : List Str)
    (hr : reconcileLines (New o) ro h svcm = some ls)
    (haddr : ∀ e ∈ svcm, addrSafe e.1) :
    ∀ a ∈ managedAddrs (New o) ls, a ∈ GoMap.keys svcm := by
  obtain ⟨em, svcm1, hw, rfl⟩ := reconcileLines_walk o ro h svcm ls hr
  have hsub := walk_sublist o svcm svcm1 _ em hw
  have hsub2 : ∀ e ∈ ro.order 0 svcm1, e ∈ svcm :=
    fun e he => hsub.subset ((ro.perm 0 svcm1).subset he)
  rw [managedAddrs_append, managedAddrs_freshLines o _ (fun e he => haddr e (hsub2 e he))]
  intro a ha
  rcases List.mem_append.1 ha with ha | ha
  · exact walk_addrs_mem o svcm svcm1 _ em hw a ha
  · obtain ⟨e, he, rfl⟩ := List.mem_map.1 ha
    exact List.mem_map.2 ⟨e, hsub2 e he, rfl⟩

theorem reconcileLines_serves (o : Opts) (ro : RangeOrder) (h : Str)
    (svcm : GoMap (List Str)) (ls : List Str)
    (hr : reconcileLines (New o) ro h svcm = some ls)
    (haddr : ∀ e ∈ svcm, addrSafe e.1) (hnames : ∀ e ∈ svcm, ∀ n ∈ e.2, '\t' ∉ n) :
    ∀ l ∈ ls, isManaged (New o) l = true → serves svcm l := by
  obtain ⟨em, svcm1, hw, rfl⟩ := reconcileLines_walk o ro h svcm ls hr
  have hsub := walk_sublist o svcm svcm1 _ em hw
  have hsub2 : ∀ e ∈ ro.order 0 svcm1, e ∈ svcm :=
    fun e he => hsub.subset ((ro.perm 0 svcm1).subset he)
  intro l hl hml
  rcases List.mem_append.1 hl with hl | hl
  · exact walk_serves o svcm svcm1 _ em hw hnames l hl hml
  · obtain ⟨ip, names, rest, hf, hm⟩ := serves_freshLines (ro.order 0 svcm1)
      (fun e he => haddr e (hsub2 e he)) (fun e he => hnames e (hsub2 e he)) l hl
    exact ⟨ip, names, rest, hf, hsub2 _ hm⟩


theorem reconcileLines_unmanaged_no_newline (o : Opts) (ro : RangeOrder) (h : Str)
    (svcm : GoMap (List Str)) (ls : List Str)
    (hr : reconcileLines (New o) ro h svcm = some ls) :
    ∀ l ∈ ls, isManaged (New o) l = false → '\n' ∉ l := by
  obtain ⟨em, svcm1, hw, rfl⟩ := reconcileLines_walk o ro h svcm ls hr
  intro l hl hml
  rcases List.mem_append.1 hl with hl | hl
  · exact split_no_sep _ _ l (walk_unmanaged_mem o svcm svcm1 _ em hw l hl hml)
  · obtain ⟨e, _, rfl⟩ := List.mem_map.1 hl
    rw [isManaged_sprintfLine] at hml
    exact Bool.noConfusion hml

/-- The lines without the marker that are joined are, in order, among the lines without
the marker of the joined content, when none of them holds a newline. -/
theorem unmanagedLines_sublist_split_join (m : Manager) (ls : List Str)
    (hls : ∀ l ∈ ls, isManaged m l = false → '\n' ∉ l) :
    (unmanagedLines m ls).Sublist (unmanagedLines m (split '\n' (join ['\n'] ls))) := by
  induction ls with
  | nil => exact List.nil_sublist _
  | cons a rest ih =>
    have hhead : (unmanagedLines m [a]).Sublist (unmanagedLines m (split '\n' a)) := by
      by_cases ha : isManaged m a = true
      · rw [unmanagedLines_cons_true _ _ _ ha]
        exact List.nil_sublist _
      · have ha2 : isManaged m a = false := by simpa using ha
        rw [split_of_not_mem '\n' a (hls a (List.mem_cons_self _ _) ha2)]
    cases rest with
    | nil => simpa [join] using hhead
    | cons b rest =>
      have h1 := ih (fun l hl => hls l (List.mem_cons_of_mem _ hl))
      have h2 : join ['\n'] (a :: b :: rest) = a ++ '\n' :: join ['\n'] (b :: rest) := by
        simp [join]
      have h3 : unmanagedLines m (a :: b :: rest) =
          unmanagedLines m [a] ++ unmanagedLines m (b :: rest) :=
        unmanagedLines_append m [a] (b :: rest)
      rw [h2, split_append, unmanagedLines_append, h3]
      exact hhead.append h1

theorem reconcileLines_nil (o : Opts) (ro : RangeOrder) (h : Str) (ls : List Str)
    (hr : reconcileLines (New o) ro h [] = some ls)
    (hu : unmanagedLines (New o) (split '\n' h) = []) : ls = [] := by
  have hun := reconcileLines_unmanaged o ro h [] ls hr
  have hma := reconcileLines_addrs_mem o ro h [] ls hr
    (fun e he => absurd he (List.not_mem_nil e))
  rw [hu] at hun
  cases ls with
  | nil => rfl
  | cons l rest =>
    by_cases hl : isManaged (New o) l = true
    · rw [managedAddrs_cons_true _ _ _ hl] at hma
      exact absurd (hma _ (List.mem_cons_self _ _)) (List.not_mem_nil _)
    · have hl2 : isManaged (New o) l = false := by simpa using hl
      rw [unmanagedLines_cons_false _ _ _ hl2] at hun
      exact List.noConfusion hun

/-! ## The lines of the new content -/

/-- The lines of the joined content that carry the marker are those of the lines joined. -/
theorem managed_split_join (o : Opts) (ls : List Str) (hnl : ∀ l ∈ ls, '\n' ∉ l) :
    (split '\n' (join ['\n'] ls)).filter (isManaged (New o)) =
      ls.filter (isManaged (New o)) := by
  by_cases hne : ls = []
  · subst hne
    have h0 : isManaged (New o) [] = false := rfl
    simp [split, join, h0]
  · rw [split_join '\n' ls hne hnl]

theorem reconcile_lines (m : Manager) (ro : RangeOrder) (h : Str) (svcm : GoMap (List Str))
    (c : Str) (hr : reconcile m ro h svcm = some c) :
    ∃ ls, reconcileLines m ro h svcm = some ls ∧ c = join ['\n'] ls := by
  unfold reconcile at hr
  cases hl : reconcileLines m ro h svcm with
  | none => rw [hl] at hr; simp at hr
  | some ls =>
    rw [hl] at hr
    simp only [Option.map_some', Option.some.injEq] at hr
    exact ⟨ls, rfl, hr.symm⟩

/-! ## A second pass over reconciled lines -/

theorem walkLine_unmanaged (m : Manager) (st : WalkState) (l : Str)
    (hl : isManaged m l = false) :
    walkLine m st l = some { st with ls := st.ls ++ [l] } := by
  unfold isManaged at hl
  simp [walkLine, hl]

theorem walkLine_kept (m : Manager) (st : WalkState) (l ip : Str) (names rest : List Str)
    (hl : isManaged m l = true) (hf : fields l = ip :: canonicalNames names :: rest)
    (hg : st.svcm.get ip = some names) :
    walkLine m st l = some { st with ls := st.ls ++ [l], svcm := st.svcm.delete ip } := by
  unfold isManaged at hl
  unfold fields at hf
  simp [walkLine, hl, hf, hg, canonicalNames]

theorem GoMap.mem_keys_delete {α : Type} (m : GoMap α) (k k2 : Str)
    (h : k2 ∈ GoMap.keys (GoMap.delete m k)) : k2 ∈ GoMap.keys m ∧ k2 ≠ k := by
  obtain ⟨e, he, rfl⟩ := List.mem_map.1 h
  unfold GoMap.delete at he
  rw [List.mem_filter] at he
  exact ⟨List.mem_map.2 ⟨e, he.1, rfl⟩, by simpa using he.2⟩

/-- A walk over lines that each serve an entry of the mapping, with distinct addresses,
keeps every line and consumes the entries served. -/
theorem walkLines_fixed (o : Opts) (lines : List Str) :
    ∀ st : WalkState,
      (∀ l ∈ lines, isManaged (New o) l = true → ∃ ip names rest,
        fields l = ip :: canonicalNames names :: rest ∧ st.svcm.get ip = some names) →
      (managedAddrs (New o) lines).Nodup →
      ∃ st1, walkLines (New o) lines st = some st1 ∧ st1.ls = st.ls ++ lines ∧
        ∀ k ∈ GoMap.keys st1.svcm,
          k ∈ GoMap.keys st.svcm ∧ k ∉ managedAddrs (New o) lines := by
  induction lines with
  | nil =>
    intro st _ _
    exact ⟨st, rfl, by simp, fun k hk => ⟨hk, by simp [managedAddrs]⟩⟩
  | cons l rest ih =>
    intro st hserve hnd
    by_cases hl : isManaged (New o) l = true
    · obtain ⟨ip, names, fs, hf, hg⟩ := hserve l (List.mem_cons_self _ _) hl
      have hma : managedAddrs (New o) (l :: rest) = ip :: managedAddrs (New o) rest := by
        rw [managedAddrs_cons_true _ _ _ hl]; unfold field0; rw [hf]; rfl
      rw [hma] at hnd ⊢
      obtain ⟨hnotin, hnd1⟩ := List.nodup_cons.1 hnd
      have hstep := walkLine_kept (New o) st l ip names fs hl hf hg
      obtain ⟨st1, hw, hls, hkeys⟩ := ih
        { st with ls := st.ls ++ [l], svcm := st.svcm.delete ip }
        (by
          intro l2 hl2 hm2
          obtain ⟨ip2, names2, fs2, hf2, hg2⟩ := hserve l2 (List.mem_cons_of_mem _ hl2) hm2
          refine ⟨ip2, names2, fs2, hf2, ?_⟩
          have hne : ip2 ≠ ip := by
            rintro rfl
            apply hnotin
            unfold managedAddrs
            refine List.mem_map.2 ⟨l2, List.mem_filter.2 ⟨hl2, hm2⟩, ?_⟩
            unfold field0; rw [hf2]; rfl
          show GoMap.get (GoMap.delete st.svcm ip) ip2 = some names2
          rw [GoMap.get_delete_ne st.svcm ip ip2 hne]
          exact hg2)
        hnd1
      refine ⟨st1, ?_, ?_, ?_⟩
      · rw [walkLines, hstep]; exact hw
      · rw [hls]; simp
      · intro k hk
        obtain ⟨hk1, hk2⟩ := hkeys k hk
        obtain ⟨hk3, hk4⟩ := GoMap.mem_keys_delete st.svcm ip k hk1
        exact ⟨hk3, by
          intro hmem
          rcases List.mem_cons.1 hmem with h | h
          · exact hk4 h
          · exact hk2 h⟩
    · have hl2 : isManaged (New o) l = false := by simpa using hl
      rw [managedAddrs_cons_false _ _ _ hl2] at hnd ⊢
      have hstep := walkLine_unmanaged (New o) st l hl2
      obtain ⟨st1, hw, hls, hkeys⟩ := ih { st with ls := st.ls ++ [l] }
        (fun l2 h2 hm2 => hserve l2 (List.mem_cons_of_mem _ h2) hm2) hnd
      refine ⟨st1, ?_, ?_, hkeys⟩
      · rw [walkLines, hstep]; exact hw
      · rw [hls]; simp


/-! ## The order of `slices.Sort` -/

theorem strLe_total (a : Str) : ∀ b : Str, strLe a b = true ∨ strLe b a = true := by
  induction a with
  | nil => intro b; left; rfl
  | cons x xs ih =>
    intro b
    cases b with
    | nil => right; rfl
    | cons y ys =>
      unfold strLe
      rcases Nat.lt_trichotomy x.toNat y.toNat with h | h | h
      · left; simp [h]
      · have h1 : ¬ x.toNat < y.toNat := by omega
        have h2 : ¬ y.toNat < x.toNat := by omega
        simp only [h1, h2, if_false]
        exact ih ys
      · right; simp [h]

theorem strLe_trans (a : Str) :
    ∀ b c : Str, strLe a b = true → strLe b c = true → strLe a c = true := by
  induction a with
  | nil => intro b c _ _; rfl
  | cons x xs ih =>
    intro b c hab hbc
    cases b with
    | nil => exact absurd hab (by simp [strLe])
    | cons y ys =>
      cases c with
      | nil => exact absurd hbc (by simp [strLe])
      | cons z zs =>
        unfold strLe at hab hbc ⊢
        by_cases hxy : x.toNat < y.toNat
        · by_cases hyz : y.toNat < z.toNat
          · have : x.toNat < z.toNat := by omega
            simp [this]
          · by_cases hzy : z.toNat < y.toNat
            · simp [hyz, hzy] at hbc
            · have : x.toNat < z.toNat := by omega
              simp [this]
        · by_cases hyx : y.toNat < x.toNat
          · simp [hxy, hyx] at hab
          · simp only [hxy, hyx, if_false] at hab
            by_cases hyz : y.toNat < z.toNat
            · have : x.toNat < z.toNat := by omega
              simp [this]
            · by_cases hzy : z.toNat < y.toNat
              · simp [hyz, hzy] at hbc
              · simp only [hyz, hzy, if_false] at hbc
                have h1 : ¬ x.toNat < z.toNat := by omega
                have h2 : ¬ z.toNat < x.toNat := by omega
                simp only [h1, h2, if_false]
                exact ih ys zs hab hbc

/-- The result of `slices.Sort` is ascending and holds the same strings. -/
theorem slicesSort_sorted (names : List Str) :
    (slicesSort names).Sorted (fun a b => strLe a b = true) ∧
      (slicesSort names).Perm names := by
  haveI : IsTotal Str (fun a b => strLe a b = true) := ⟨strLe_total⟩
  haveI : IsTrans Str (fun a b => strLe a b = true) := ⟨strLe_trans⟩
  exact ⟨List.sorted_insertionSort _ names, List.perm_insertionSort _ names⟩

theorem plainMapping_safe (svcm : GoMap (List Str)) (h : plainMapping svcm) :
    safeMapping svcm := by
  have key : ∀ s : Str, noSpace s → fieldSafe s := by
    intro s hs
    refine ⟨fun ht => ?_, fun hn => ?_⟩
    · exact absurd (hs.2 _ ht) (by decide)
    · exact absurd (hs.2 _ hn) (by decide)
  intro e he
  obtain ⟨ha, hn⟩ := h e he
  refine ⟨⟨?_, key _ ha⟩, fun n hn2 => key n (hn n hn2)⟩
  cases hs : e.1 with
  | nil => exact absurd hs ha.1
  | cons c t =>
    have := ha.2 c (by rw [hs]; exact List.mem_cons_self _ _)
    simp [startsPlain, this]

theorem safeMapping_newlineFree (svcm : GoMap (List Str)) (h : safeMapping svcm) :
    newlineFree svcm :=
  fun e he => ⟨(h e he).1.2.2, fun n hn => ((h e he).2 n hn).2⟩


/-! ## The hosts-file reconciler: the properties -/

theorem filter_unique {α : Type} (f : α → Str) (a : Str) (xs : List α)
    (hnd : (xs.map f).Nodup) (ha : a ∈ xs.map f) :
    ∃ x, xs.filter (fun y => decide (f y = a)) = [x] ∧ x ∈ xs ∧ f x = a := by
  induction xs with
  | nil => simp at ha
  | cons y ys ih =>
    rw [List.map_cons, List.nodup_cons] at hnd
    by_cases hy : f y = a
    · refine ⟨y, ?_, List.mem_cons_self _ _, hy⟩
      rw [List.filter_cons_of_pos (by simpa using hy)]
      congr 1
      rw [List.filter_eq_nil_iff]
      intro z hz hfz
      apply hnd.1
      have : f z = a := by simpa using hfz
      rw [hy, ← this]
      exact List.mem_map.2 ⟨z, hz, rfl⟩
    · have ha2 : a ∈ ys.map f := by
        rcases List.mem_cons.1 (by simpa using ha : a ∈ f y :: ys.map f) with h | h
        · exact absurd h.symm hy
        · exact h
      obtain ⟨x, hx, hmem, hfx⟩ := ih hnd.2 ha2
      refine ⟨x, ?_, List.mem_cons_of_mem _ hmem, hfx⟩
      rw [List.filter_cons_of_neg (by simpa using hy)]
      exact hx

/-- C1 (amended). Isolation: whatever the mapping is, the lines of the current content
that do not carry the marker are lines of the new content, unchanged and in the same
order, among its lines that do not carry the marker. The new content has no other line
without the marker when no address and no name of the mapping holds a newline and the
current content has a line without the marker or the mapping is not empty; when the
current content has no such line and the mapping is empty, the new content is the empty
text. -/
theorem reconcile_isolation (o : Opts) (ro : RangeOrder) (h : Str) (svcm : GoMap (List Str))
    (c : Str) (hr : reconcile (New o) ro h svcm = some c) :
    (unmanagedLines (New o) (split '\n' h)).Sublist
      (unmanagedLines (New o) (split '\n' c)) ∧
    (newlineFree svcm →
      (unmanagedLines (New o) (split '\n' h) ≠ [] ∨ svcm ≠ []) →
      unmanagedLines (New o) (split '\n' c) = unmanagedLines (New o) (split '\n' h)) ∧
    (unmanagedLines (New o) (split '\n' h) = [] → svcm = [] → c = []) := by
  obtain ⟨ls, hls, rfl⟩ := reconcile_lines _ ro h svcm c hr
  refine ⟨?_, ?_, ?_⟩
  · rw [← reconcileLines_unmanaged o ro h svcm ls hls]
    exact unmanagedLines_sublist_split_join (New o) ls
      (reconcileLines_unmanaged_no_newline o ro h svcm ls hls)
  · intro hnl hne
    rw [split_join '\n' ls (reconcileLines_ne_nil o ro h svcm ls hls hne)
      (reconcileLines_no_newline o ro h svcm ls hls hnl)]
    exact reconcileLines_unmanaged o ro h svcm ls hls
  · intro hu hs
    subst hs
    rw [reconcileLines_nil o ro h ls hls hu]
    rfl

/-- C3 (amended). Completeness: when the addresses of the mapping start with a character
that is not white space and the addresses and names hold no tab and no newline, the new
content has, for every entry of the mapping, exactly one line that carries the marker and
has the address as field 0; the field 1 of that line is the names of the entry sorted
ascending and joined by single spaces. -/
theorem reconcile_completeness (o : Opts) (ro : RangeOrder) (h : Str)
    (svcm : GoMap (List Str)) (c ip : Str) (names : List Str)
    (hmap : (GoMap.keys svcm).Nodup) (hsafe : safeMapping svcm)
    (hr : reconcile (New o) ro h svcm = some c) (hmem : (ip, names) ∈ svcm) :
    ∃ l rest,
      (split '\n' c).filter (fun x => isManaged (New o) x && decide (field0 x = ip)) = [l] ∧
      fields l = ip :: canonicalNames names :: rest ∧
      (slicesSort names).Sorted (fun a b => strLe a b = true) ∧
      (slicesSort names).Perm names := by
  obtain ⟨ls, hls, rfl⟩ := reconcile_lines _ ro h svcm c hr
  have hnl := reconcileLines_no_newline o ro h svcm ls hls (safeMapping_newlineFree svcm hsafe)
  have haddr := reconcileLines_addrs o ro h svcm ls hls hmap (fun e he => (hsafe e he).1)
  have hserve := reconcileLines_serves o ro h svcm ls hls (fun e he => (hsafe e he).1)
    (fun e he n hn => ((hsafe e he).2 n hn).1)
  have hin : ip ∈ (ls.filter (isManaged (New o))).map field0 :=
    haddr.symm.subset (List.mem_map.2 ⟨(ip, names), hmem, rfl⟩)
  obtain ⟨l, hfl, hl, hf0⟩ := filter_unique field0 ip (ls.filter (isManaged (New o)))
    (haddr.nodup_iff.2 hmap) hin
  obtain ⟨hl1, hl2⟩ := List.mem_filter.1 hl
  obtain ⟨ip2, names2, rest, hf, hm2⟩ := hserve l hl1 hl2
  have hip : ip2 = ip := by
    rw [← hf0]; unfold field0; rw [hf]; rfl
  subst hip
  have hn : names2 = names := by
    have h1 := GoMap.mem_get svcm hmap ip2 names2 hm2
    have h2 := GoMap.mem_get svcm hmap ip2 names hmem
    rw [h1] at h2
    exact Option.some.inj h2
  subst hn
  refine ⟨l, rest, ?_, hf, slicesSort_sorted names2⟩
  have hcomm : (split '\n' (join ['\n'] ls)).filter
      (fun x => isManaged (New o) x && decide (field0 x = ip2)) =
      ((split '\n' (join ['\n'] ls)).filter (isManaged (New o))).filter
        (fun y => decide (field0 y = ip2)) := by
    rw [List.filter_filter]
    apply List.filter_congr
    intro x _
    exact Bool.and_comm _ _
  rw [hcomm, managed_split_join o ls hnl]
  exact hfl

/-- C4. Minimality: when the addresses and names of the mapping are non-empty and hold no
white space, every line of the new content that carries the marker has as field 0 an
address of the mapping; so a managed line of the current content whose address is not in
the mapping is not a line of the new content. -/
theorem reconcile_minimality (o : Opts) (ro : RangeOrder) (h : Str)
    (svcm : GoMap (List Str)) (c : Str) (hplain : plainMapping svcm)
    (hr : reconcile (New o) ro h svcm = some c) :
    (∀ l ∈ split '\n' c, isManaged (New o) l = true → field0 l ∈ GoMap.keys svcm) ∧
    (∀ l ∈ split '\n' h, isManaged (New o) l = true → field0 l ∉ GoMap.keys svcm →
      l ∉ split '\n' c) := by
  obtain ⟨ls, hls, rfl⟩ := reconcile_lines _ ro h svcm c hr
  have hsafe := plainMapping_safe svcm hplain
  have hnl := reconcileLines_no_newline o ro h svcm ls hls (safeMapping_newlineFree svcm hsafe)
  have haddr := reconcileLines_addrs_mem o ro h svcm ls hls (fun e he => (hsafe e he).1)
  have key : ∀ l ∈ split '\n' (join ['\n'] ls), isManaged (New o) l = true →
      field0 l ∈ GoMap.keys svcm := by
    intro l hl hm
    have h1 : l ∈ (split '\n' (join ['\n'] ls)).filter (isManaged (New o)) :=
      List.mem_filter.2 ⟨hl, hm⟩
    rw [managed_split_join o ls hnl] at h1
    exact haddr _ (List.mem_map.2 ⟨l, h1, rfl⟩)
  exact ⟨key, fun l _ hm hnot hin => hnot (key l hin hm)⟩

/-- C5. Idempotence: when the addresses and names of the mapping are non-empty and hold no
white space, reconciling the mapping against the content that a reconciliation of it
returned gives that content again, whatever the order of the map visits of either run. -/
theorem reconcile_idempotent (o : Opts) (ro1 ro2 : RangeOrder) (h : Str)
    (svcm : GoMap (List Str)) (c : Str)
    (hmap : (GoMap.keys svcm).Nodup) (hplain : plainMapping svcm)
    (hr : reconcile (New o) ro1 h svcm = some c) :
    reconcile (New o) ro2 c svcm = some c := by
  obtain ⟨ls, hls, rfl⟩ := reconcile_lines _ ro1 h svcm c hr
  have hsafe := plainMapping_safe svcm hplain
  have hnl := reconcileLines_no_newline o ro1 h svcm ls hls
    (safeMapping_newlineFree svcm hsafe)
  have haddr := reconcileLines_addrs o ro1 h svcm ls hls hmap (fun e he => (hsafe e he).1)
  have hserve := reconcileLines_serves o ro1 h svcm ls hls (fun e he => (hsafe e he).1)
    (fun e he n hn => ((hsafe e he).2 n hn).1)
  have hman := managed_split_join o ls hnl
  have haddr2 : managedAddrs (New o) (split '\n' (join ['\n'] ls)) =
      managedAddrs (New o) ls := by
    unfold managedAddrs; rw [hman]
  obtain ⟨st1, hw, hls1, hkeys⟩ := walkLines_fixed o (split '\n' (join ['\n'] ls))
    { ls := [], svcm := svcm, events := [] }
    (by
      intro l hl hm
      have h1 : l ∈ ls.filter (isManaged (New o)) := by
        rw [← hman]; exact List.mem_filter.2 ⟨hl, hm⟩
      obtain ⟨ip, names, rest, hf, hmem⟩ := hserve l (List.mem_filter.1 h1).1 hm
      exact ⟨ip, names, rest, hf, GoMap.mem_get svcm hmap ip names hmem⟩)
    (by rw [haddr2]; exact haddr.nodup_iff.2 hmap)
  have hnil : st1.svcm = [] := by
    cases hs : st1.svcm with
    | nil => rfl
    | cons e rest =>
      have hk : e.1 ∈ GoMap.keys st1.svcm := by
        rw [hs]; exact List.mem_cons_self _ _
      obtain ⟨hk1, hk2⟩ := hkeys e.1 hk
      rw [haddr2] at hk2
      exact absurd (haddr.symm.subset hk1) hk2
  have hord : ro2.order 0 st1.svcm = [] := by
    have := ro2.perm 0 st1.svcm
    rw [hnil] at this ⊢
    exact this.eq_nil
  unfold reconcile reconcileLines reconcileState
  rw [hw]
  simp only [Option.map_some', hord, List.foldl_nil, hls1, List.nil_append, join_split]

/-- C2. A line that consists of the marker alone makes the reconciliation panic: the line
carries the marker and has no field 1, so no content is produced, whatever the mapping. -/
theorem reconcile_marker_only_panics (o : Opts) (ro : RangeOrder) (wr : Option GoError)
    (svcm : GoMap (List Str)) :
    reconcile (New o) ro markerKey svcm = none ∧
      updateHostsFile (New o) ro (.ok markerKey) wr svcm = none := by
  have h : reconcile (New o) ro markerKey svcm = none := rfl
  exact ⟨h, by simp [updateHostsFile, h]⟩

/-- C8 (amended). With an empty or missing hosts file and a mapping of one address, the
content written is an empty line followed by the one managed line of the address. -/
theorem updateHostsFile_empty_file (o : Opts) (ro : RangeOrder) (wr : Option GoError)
    (err : GoError) (ip : Str) (names : List Str) :
    updateHostsFile (New o) ro (.ok []) wr [(ip, names)] =
      some { err := wr, written := some ('\n' :: ip ++ ['\t'] ++ canonicalNames names ++
        ['\t'] ++ markerKey) } ∧
    updateHostsFile (New o) ro (.notExist err) wr [(ip, names)] =
      some { err := wr, written := some ('\n' :: ip ++ ['\t'] ++ canonicalNames names ++
        ['\t'] ++ markerKey) } ∧
    (slicesSort names).Sorted (fun a b => strLe a b = true) ∧
    (slicesSort names).Perm names := by
  have hord : ro.order 0 [(ip, names)] = [(ip, names)] :=
    List.perm_singleton.1 (ro.perm 0 [(ip, names)])
  have h : reconcile (New o) ro [] [(ip, names)] =
      some ('\n' :: ip ++ ['\t'] ++ canonicalNames names ++ ['\t'] ++ markerKey) := by
    have hw : walkLines (New o) (split '\n' [])
        { ls := [], svcm := [(ip, names)], events := [] } =
        some { ls := [[]], svcm := [(ip, names)], events := [] } := rfl
    unfold reconcile reconcileLines reconcileState
    rw [hw]
    simp only [Option.map_some', hord, List.foldl_cons, List.foldl_nil]
    simp [addStep, join, sprintfLine, canonicalNames, New]
  exact ⟨by simp [updateHostsFile, h], by simp [updateHostsFile, h], slicesSort_sorted names⟩

/-- The order of a map visit is free: any rearrangement of the entries of a map is the
order in which some visit goes through them. -/
theorem rangeOrder_any (left p : GoMap (List Str)) (hp : p.Perm left) :
    ∃ ro : RangeOrder, ro.order 0 left = p := by
  classical
  refine ⟨⟨fun {α} _ m =>
      if hq : ∃ q : GoMap α, q.Perm m ∧ HEq q p then Classical.choose hq else m, ?_⟩, ?_⟩
  · intro α n m
    by_cases hq : ∃ q : GoMap α, q.Perm m ∧ HEq q p
    · simp only [dif_pos hq]
      exact (Classical.choose_spec hq).1
    · simp only [dif_neg hq]
      exact List.Perm.refl m
  · have hq : ∃ q : GoMap (List Str), q.Perm left ∧ HEq q p := ⟨p, hp, HEq.rfl⟩
    simp only [dif_pos hq]
    exact eq_of_heq (Classical.choose_spec hq).2

/-- C9 (amended). The new content is determined by the current content, the mapping and
the order of the map visit of the second loop, and by nothing else. Unless the first loop
panics, its outcome does not depend on the run: it leaves exactly the entries of the
mapping whose address is the field 0 of no managed line of the current content. The new
content is the lines of the first loop followed by the fresh lines of the entries left,
in the order in which the visit goes through them; the code imposes no order, so every
rearrangement of the entries left is the order of the added lines in some run. -/
theorem reconcile_determined_up_to_visit (o : Opts) (h : Str) (svcm : GoMap (List Str)) :
    (walkLines (New o) (split '\n' h) { ls := [], svcm := svcm, events := [] } = none ∧
      ∀ ro : RangeOrder, reconcile (New o) ro h svcm = none) ∨
    ∃ st, walkLines (New o) (split '\n' h) { ls := [], svcm := svcm, events := [] } =
        some st ∧
      st.svcm = unmatched (New o) h svcm ∧
      (∀ ro : RangeOrder, reconcile (New o) ro h svcm =
        some (join ['\n'] (st.ls ++ freshLines (ro.order 0 st.svcm)))) ∧
      (∀ p : GoMap (List Str), p.Perm st.svcm → ∃ ro : RangeOrder,
        reconcile (New o) ro h svcm = some (join ['\n'] (st.ls ++ freshLines p))) := by
  cases hw : walkLines (New o) (split '\n' h) { ls := [], svcm := svcm, events := [] } with
  | none =>
    left
    refine ⟨rfl, ?_⟩
    intro ro
    simp [reconcile, reconcileLines, reconcileState, hw]
  | some st =>
    right
    obtain ⟨em, _, hwalk⟩ := walkLines_walk o _ _ st hw
    have hall : ∀ ro : RangeOrder, reconcile (New o) ro h svcm =
        some (join ['\n'] (st.ls ++ freshLines (ro.order 0 st.svcm))) := by
      intro ro
      simp [reconcile, reconcileLines, reconcileState, hw, foldl_addStep_ls]
    refine ⟨st, rfl, walk_left o svcm st.svcm _ em hwalk, hall, ?_⟩
    intro p hp
    obtain ⟨ro, hro⟩ := rangeOrder_any st.svcm p hp
    exact ⟨ro, by rw [hall ro, hro]⟩

/-! ## The service extractor and the error policy -/

theorem exportStep_eq (svcs : List service) (svc : Service) :
    exportStep svcs svc = svcs ++ exportedSpec [svc] := by
  unfold exportStep exportedSpec
  by_cases ht : svc.SpecType = "LoadBalancer".toList
  · rw [if_neg (not_not_intro ht)]
    have he : eligible svc = !svc.Ingress.isEmpty := by
      unfold eligible; rw [decide_eq_true ht]; rfl
    cases hi : svc.Ingress with
    | nil => simp [List.filter, he, hi]
    | cons ing rest => simp [List.filter, he, hi, candidate]
  · rw [if_pos ht]
    have he : eligible svc = false := by
      unfold eligible; rw [decide_eq_false ht]; rfl
    simp [List.filter, he]

theorem foldl_exportStep (items : List Service) :
    ∀ svcs : List service, items.foldl exportStep svcs = svcs ++ exportedSpec items := by
  induction items with
  | nil => intro svcs; simp [exportedSpec]
  | cons svc rest ih =>
    intro svcs
    rw [List.foldl_cons, ih, exportStep_eq, List.append_assoc]
    congr 1
    unfold exportedSpec
    rw [← List.map_append, ← List.filter_append]
    rfl

/-- C6. The loop of `getExportedServices` returns, in the order of the list, the
candidate of each record whose type is `LoadBalancer` and that has an ingress entry, and
nothing for the other records; the empty list gives no candidate. -/
theorem getExportedServices_spec (items : List Service) :
    exportLoop items = exportedSpec items ∧
    getExportedServices (.ok items) = .ok (exportedSpec items) ∧
    exportLoop [] = [] := by
  have h : exportLoop items = exportedSpec items := by
    unfold exportLoop
    rw [foldl_exportStep]
    rfl
  exact ⟨h, by simp [getExportedServices, h], rfl⟩

/-- C10. The error policy: without an error `handleError` returns none; with the error
of a tick, a manager that ignores errors logs it, returns none, and the loop goes on to
the next iteration, and a manager that does not returns an error that wraps the error of
the tick, which the loop returns at once. -/
theorem handleError_policy (o : Opts) (env : TickEnv) (e : GoError)
    (rest : List (Bool × TickEnv)) (htick : tick (New o) env = some (some e)) :
    handleError (New o) none = (none, []) ∧
    (if o.IgnoreErrors = true then
      handleError (New o) (some e) = (none, [(wrapped e).text]) ∧
      loop (New o) ((false, env) :: rest) = loop (New o) rest
    else
      handleError (New o) (some e) = (some (wrapped e), []) ∧
      (wrapped e).unwrap = some e ∧
      loop (New o) ((false, env) :: rest) = .returned (some (wrapped e))) := by
  refine ⟨rfl, ?_⟩
  by_cases hi : o.IgnoreErrors = true
  · rw [if_pos hi]
    have h1 : handleError (New o) (some e) = (none, [(wrapped e).text]) := by
      simp [handleError, New, hi, wrapped]
    exact ⟨h1, by simp [loop, htick, h1]⟩
  · rw [if_neg hi]
    have h1 : handleError (New o) (some e) = (some (wrapped e), []) := by
      simp [handleError, New, hi, wrapped]
    exact ⟨h1, rfl, by simp [loop, htick, h1]⟩


/-! ## The mapping reducer -/

namespace GoMap

theorem set_of_not_mem {α : Type} (m : GoMap α) (k : Str) (v : α) (hk : k ∉ keys m) :
    set m k v = m ++ [(k, v)] := by
  induction m with
  | nil => rfl
  | cons e rest ih =>
    obtain ⟨k1, v1⟩ := e
    have hne : k1 ≠ k := fun h => hk (by rw [h]; exact List.mem_cons_self _ _)
    have hrest : k ∉ keys rest := fun h => hk (List.mem_cons_of_mem _ h)
    simp only [set, if_neg hne, ih hrest, List.cons_append]

theorem get_set_eq {α : Type} (m : GoMap α) (k : Str) (v : α) :
    get (set m k v) k = some v := by
  induction m with
  | nil => simp [set, get]
  | cons e rest ih =>
    obtain ⟨k1, v1⟩ := e
    by_cases hk : k1 = k
    · simp [set, hk, get]
    · simp [set, hk, get, ih]

theorem get_set_ne {α : Type} (m : GoMap α) (k k2 : Str) (v : α) (h : k2 ≠ k) :
    get (set m k v) k2 = get m k2 := by
  induction m with
  | nil =>
    have : k ≠ k2 := fun h2 => h h2.symm
    simp [set, get, this]
  | cons e rest ih =>
    obtain ⟨k1, v1⟩ := e
    by_cases hk : k1 = k
    · have h3 : k ≠ k2 := fun h2 => h h2.symm
      have h4 : k1 ≠ k2 := by rw [hk]; exact h3
      simp [set, hk, get, h3]
    · by_cases hk2 : k1 = k2
      · subst hk2
        simp [set, hk, get]
      · simp [set, hk, get, hk2, ih]

theorem keys_set {α : Type} (m : GoMap α) (k : Str) (v : α) :
    keys (set m k v) = if k ∈ keys m then keys m else keys m ++ [k] := by
  induction m with
  | nil => simp [set, keys]
  | cons e rest ih =>
    obtain ⟨k1, v1⟩ := e
    have hkeys : ∀ (a : Str) (b : α) (r : GoMap α), keys ((a, b) :: r) = a :: keys r :=
      fun _ _ _ => rfl
    by_cases hk : k1 = k
    · subst hk
      simp [set, hkeys]
    · have hk2 : k ≠ k1 := fun h => hk h.symm
      simp only [set, if_neg hk, hkeys, ih, List.mem_cons, hk2, false_or]
      split_ifs <;> simp

theorem nodup_keys_set {α : Type} (m : GoMap α) (k : Str) (v : α) (h : (keys m).Nodup) :
    (keys (set m k v)).Nodup := by
  rw [keys_set]
  split_ifs with hk
  · exact h
  · exact List.Nodup.append h (List.nodup_singleton k) (by simpa using hk)

theorem mem_keys_set {α : Type} (m : GoMap α) (k k2 : Str) (v : α) :
    k2 ∈ keys (set m k v) ↔ k2 = k ∨ k2 ∈ keys m := by
  rw [keys_set]
  split_ifs with hk
  · constructor
    · intro h; exact Or.inr h
    · rintro (rfl | h)
      · exact hk
      · exact h
  · simp only [List.mem_append, List.mem_singleton]
    tauto

end GoMap

theorem namesOf_eq (visited : GoMap Bool) : namesOf visited = GoMap.keys visited := by
  have h : ∀ acc : List Str,
      visited.foldl (fun dnss e => dnss ++ [e.1]) acc = acc ++ GoMap.keys visited := by
    induction visited with
    | nil => intro acc; simp [GoMap.keys]
    | cons e rest ih =>
      intro acc
      rw [List.foldl_cons, ih]
      simp [GoMap.keys]
  simpa using h []

theorem grouped_step (svcs : List service) (ipm : GoMap (GoMap Bool)) (s : service)
    (h : Grouped svcs ipm) : Grouped (svcs ++ [s]) (groupStep ipm s) := by
  obtain ⟨hnd, hall⟩ := h
  have hset : ∀ v, groupStep ipm s = ipm.set s.ip v →
      ((GoMap.keys v).Nodup ∧ v ≠ [] ∧
        ∀ d, d ∈ GoMap.keys v ↔ ({ dns := d, ip := s.ip } : service) ∈ svcs ++ [s]) →
      Grouped (svcs ++ [s]) (groupStep ipm s) := by
    intro v hv hprop
    rw [hv]
    refine ⟨GoMap.nodup_keys_set ipm s.ip v hnd, fun ip => ?_⟩
    by_cases hip : ip = s.ip
    · subst hip
      rw [GoMap.get_set_eq]
      exact ⟨fun hc => Option.noConfusion hc, fun dnsm hd => by
        rw [← Option.some.inj hd]; exact hprop⟩
    · rw [GoMap.get_set_ne ipm s.ip ip v hip]
      have hs : s.ip ≠ ip := fun h2 => hip h2.symm
      refine ⟨fun hn t ht => ?_, fun dnsm hd => ?_⟩
      · rcases List.mem_append.1 ht with ht | ht
        · exact (hall ip).1 hn t ht
        · rw [List.mem_singleton.1 ht]; exact hs
      · obtain ⟨h1, h2, h3⟩ := (hall ip).2 dnsm hd
        refine ⟨h1, h2, fun d => ?_⟩
        rw [h3 d, List.mem_append, List.mem_singleton]
        constructor
        · intro hm; exact Or.inl hm
        · rintro (hm | hm)
          · exact hm
          · exact absurd (congrArg service.ip hm).symm hs
  cases hg : ipm.get s.ip with
  | none =>
    apply hset (GoMap.set [] s.dns true) (by simp [groupStep, hg])
    refine ⟨by simp [GoMap.set, GoMap.keys], by simp [GoMap.set], fun d => ?_⟩
    have hno := (hall s.ip).1 hg
    simp only [GoMap.set, GoMap.keys, List.map_cons, List.map_nil, List.mem_singleton,
      List.mem_append]
    constructor
    · rintro rfl; exact Or.inr rfl
    · rintro (hm | hm)
      · exact absurd rfl (hno { dns := d, ip := s.ip } hm)
      · exact congrArg service.dns hm
  | some dnsm =>
    apply hset (dnsm.set s.dns true) (by simp [groupStep, hg])
    obtain ⟨h1, h2, h3⟩ := (hall s.ip).2 dnsm hg
    refine ⟨GoMap.nodup_keys_set dnsm s.dns true h1, ?_, fun d => ?_⟩
    · intro hnil
      have := GoMap.get_set_eq dnsm s.dns true
      rw [hnil] at this
      exact Option.noConfusion this
    · rw [GoMap.mem_keys_set, h3 d, List.mem_append, List.mem_singleton]
      constructor
      · rintro (rfl | hm)
        · exact Or.inr rfl
        · exact Or.inl hm
      · rintro (hm | hm)
        · exact Or.inr hm
        · exact Or.inl (congrArg service.dns hm)

theorem grouped_foldl (svcs : List service) : Grouped svcs (svcs.foldl groupStep []) := by
  induction svcs using List.reverseRecOn with
  | nil =>
    exact ⟨List.nodup_nil, fun ip => ⟨fun _ s hs => absurd hs (List.not_mem_nil s),
      fun dnsm hd => Option.noConfusion hd⟩⟩
  | append_singleton xs x ih =>
    rw [List.foldl_append]
    exact grouped_step xs _ x ih

theorem collectLoop_spec (ro : RangeOrder) (visited : GoMap (GoMap Bool)) :
    ∀ (n : Nat) (acc : GoMap (List Str)),
      (GoMap.keys acc ++ GoMap.keys visited).Nodup →
      ∃ out, collectLoop ro n visited acc = acc ++ out ∧
        GoMap.keys out = GoMap.keys visited ∧
        ∀ e ∈ out, ∃ dnsm k, (e.1, dnsm) ∈ visited ∧
          e.2 = GoMap.keys (ro.order k dnsm) := by
  induction visited with
  | nil =>
    intro n acc _
    exact ⟨[], by simp [collectLoop], rfl, by simp⟩
  | cons e rest ih =>
    obtain ⟨ip, dnsm⟩ := e
    intro n acc hnd
    have hkeys : GoMap.keys ((ip, dnsm) :: rest) = ip :: GoMap.keys rest := rfl
    rw [hkeys] at hnd
    have hnotin : ip ∉ GoMap.keys acc := by
      intro hin
      exact (List.nodup_append.1 hnd).2.2 hin (List.mem_cons_self _ _)
    have hacc : acc.set ip (namesOf (ro.order n dnsm)) =
        acc ++ [(ip, namesOf (ro.order n dnsm))] := GoMap.set_of_not_mem acc ip _ hnotin
    have hnd2 : (GoMap.keys (acc ++ [(ip, namesOf (ro.order n dnsm))]) ++
        GoMap.keys rest).Nodup := by
      have : GoMap.keys (acc ++ [(ip, namesOf (ro.order n dnsm))]) =
          GoMap.keys acc ++ [ip] := by simp [GoMap.keys]
      rw [this, List.append_assoc]
      exact hnd
    obtain ⟨out, hout, hk, hall⟩ := ih (n + 1) _ hnd2
    refine ⟨(ip, namesOf (ro.order n dnsm)) :: out, ?_, ?_, ?_⟩
    · rw [collectLoop, hacc, hout]; simp
    · rw [hkeys, ← hk]; rfl
    · intro e he
      rcases List.mem_cons.1 he with rfl | he
      · exact ⟨dnsm, n, List.mem_cons_self _ _, namesOf_eq _⟩
      · obtain ⟨d2, k, hm, hv⟩ := hall e he
        exact ⟨d2, k, List.mem_cons_of_mem _ hm, hv⟩


theorem processServices_single (ro : RangeOrder) (n : Nat) (s : service) :
    processServices ro (List.replicate (n + 1) s) = [(s.ip, [s.dns])] := by
  have hstep : groupStep [(s.ip, [(s.dns, true)])] s = [(s.ip, [(s.dns, true)])] := by
    simp [groupStep, GoMap.get, GoMap.set]
  have hfold : ∀ k : Nat, (List.replicate k s).foldl groupStep [(s.ip, [(s.dns, true)])] =
      [(s.ip, [(s.dns, true)])] := by
    intro k
    induction k with
    | zero => rfl
    | succ k ih => rw [List.replicate_succ, List.foldl_cons, hstep, ih]
  have hipm : (List.replicate (n + 1) s).foldl groupStep [] = [(s.ip, [(s.dns, true)])] := by
    rw [List.replicate_succ, List.foldl_cons]
    exact hfold n
  have h0 : ro.order 0 ([(s.ip, [(s.dns, true)])] : GoMap (GoMap Bool)) =
      [(s.ip, [(s.dns, true)])] := List.perm_singleton.1 (ro.perm 0 _)
  have h1 : ro.order 1 ([(s.dns, true)] : GoMap Bool) = [(s.dns, true)] :=
    List.perm_singleton.1 (ro.perm 1 _)
  unfold processServices
  simp only [hipm, h0, collectLoop, h1]
  rfl

/-- C7. The mapping that `processServices` returns holds each address once; its addresses
are exactly the addresses of the candidates; the names of an address are exactly the
names that the candidates pair with it, each once, so at least one; no candidate gives
the empty mapping, and copies of one candidate give the mapping of the candidate alone,
whatever the order of the map visits. -/
theorem processServices_spec (ro : RangeOrder) (svcs : List service) :
    (GoMap.keys (processServices ro svcs)).Nodup ∧
    (∀ ip, (∃ names, (processServices ro svcs).get ip = some names) ↔
      ∃ s ∈ svcs, s.ip = ip) ∧
    (∀ ip names, (processServices ro svcs).get ip = some names →
      names.Nodup ∧ names ≠ [] ∧
        ∀ d, d ∈ names ↔ ({ dns := d, ip := ip } : service) ∈ svcs) ∧
    processServices ro [] = [] ∧
    (∀ (n : Nat) (s : service) (ro2 : RangeOrder),
      processServices ro (List.replicate (n + 1) s) = processServices ro2 [s]) := by
  obtain ⟨hnd, hall⟩ := grouped_foldl svcs
  have hperm := ro.perm 0 (svcs.foldl groupStep [])
  have hkperm : (GoMap.keys (ro.order 0 (svcs.foldl groupStep []))).Perm
      (GoMap.keys (svcs.foldl groupStep [])) := hperm.map _
  obtain ⟨out, hout, hkeys, hent⟩ := collectLoop_spec ro (ro.order 0 (svcs.foldl groupStep []))
    1 [] (by simpa [GoMap.keys] using hkperm.nodup_iff.2 hnd)
  have hr : processServices ro svcs = out := by
    unfold processServices
    rw [hout]; rfl
  have hnames : ∀ ip names, (processServices ro svcs).get ip = some names →
      ∃ dnsm k, (svcs.foldl groupStep []).get ip = some dnsm ∧
        names = GoMap.keys (ro.order k dnsm) := by
    intro ip names hg
    rw [hr] at hg
    obtain ⟨dnsm, k, hm, hv⟩ := hent (ip, names) (GoMap.get_some_mem out ip names hg)
    exact ⟨dnsm, k, GoMap.mem_get _ hnd ip dnsm (hperm.subset hm), hv⟩
  refine ⟨?_, ?_, ?_, ?_, ?_⟩
  · rw [hr, hkeys]
    exact hkperm.nodup_iff.2 hnd
  · intro ip
    constructor
    · rintro ⟨names, hg⟩
      obtain ⟨dnsm, k, hd, _⟩ := hnames ip names hg
      obtain ⟨_, hne, hmem⟩ := (hall ip).2 dnsm hd
      cases dnsm with
      | nil => exact absurd rfl hne
      | cons e rest =>
        exact ⟨{ dns := e.1, ip := ip }, (hmem e.1).1 (List.mem_cons_self _ _), rfl⟩
    · rintro ⟨s, hs, rfl⟩
      cases hg : (processServices ro svcs).get s.ip with
      | some names => exact ⟨names, rfl⟩
      | none =>
        have h1 : s.ip ∉ GoMap.keys (svcs.foldl groupStep []) := by
          rw [GoMap.get_none_iff, hr, hkeys] at hg
          exact fun hin => hg (hkperm.symm.subset hin)
        exact absurd rfl ((hall s.ip).1 ((GoMap.get_none_iff _ _).2 h1) s hs)
  · intro ip names hg
    obtain ⟨dnsm, k, hd, rfl⟩ := hnames ip names hg
    obtain ⟨h1, h2, h3⟩ := (hall ip).2 dnsm hd
    have hp : (GoMap.keys (ro.order k dnsm)).Perm (GoMap.keys dnsm) := (ro.perm k dnsm).map _
    refine ⟨hp.nodup_iff.2 h1, ?_, fun d => ?_⟩
    · intro hnil
      rw [hnil] at hp
      have : GoMap.keys dnsm = [] := hp.symm.eq_nil
      cases dnsm with
      | nil => exact h2 rfl
      | cons e rest => exact List.noConfusion this
    · rw [hp.mem_iff]
      exact h3 d
  · have h0 : ro.order 0 ([] : GoMap (GoMap Bool)) = [] := (ro.perm 0 _).eq_nil
    unfold processServices
    simp only [List.foldl_nil, h0, collectLoop]
  · intro n s ro2
    rw [processServices_single ro n s]
    exact (processServices_single ro2 0 s).symm


/-! ## The properties on sample inputs -/

/-- C1 as stated fails: when the only line of the file is a managed line that is removed,
the new content is empty and its one line, the empty line, does not carry the marker,
while the current content has no such line; and a name with a newline splits a managed
line into two, the first of which does not carry the marker. -/
theorem isolation_fails_as_stated :
    (reconcile (New ⟨true⟩) RangeOrder.forward managedOnlyHosts [] = some [] ∧
      unmanagedLines (New ⟨true⟩) (split '\n' []) = [[]] ∧
      unmanagedLines (New ⟨true⟩) (split '\n' managedOnlyHosts) = []) ∧
    (reconcile (New ⟨true⟩) RangeOrder.forward "127.0.0.1\tlocalhost".toList
        [("10.0.0.1".toList, ["a\nb".toList])] =
        some "127.0.0.1\tlocalhost\n10.0.0.1\ta\nb\t# lb-hosts-manager".toList ∧
      unmanagedLines (New ⟨true⟩)
        (split '\n' "127.0.0.1\tlocalhost\n10.0.0.1\ta\nb\t# lb-hosts-manager".toList) =
        ["127.0.0.1\tlocalhost".toList, "10.0.0.1\ta".toList] ∧
      unmanagedLines (New ⟨true⟩) (split '\n' "127.0.0.1\tlocalhost".toList) =
        ["127.0.0.1\tlocalhost".toList]) := by
  decide

/-- The isolation of C1 on the sample file: the line of `localhost` is the one line
without the marker, before and after. -/
theorem reconcile_isolation_witness :
    reconcile (New ⟨true⟩) RangeOrder.forward sampleHosts sampleMapping = some sampleContent ∧
    unmanagedLines (New ⟨true⟩) (split '\n' sampleHosts) = ["127.0.0.1\tlocalhost".toList] ∧
    (unmanagedLines (New ⟨true⟩) (split '\n' sampleHosts)).Sublist
      (unmanagedLines (New ⟨true⟩) (split '\n' sampleContent)) ∧
    unmanagedLines (New ⟨true⟩) (split '\n' sampleContent) =
      unmanagedLines (New ⟨true⟩) (split '\n' sampleHosts) :=
  ⟨by decide, by decide,
    (reconcile_isolation ⟨true⟩ RangeOrder.forward sampleHosts sampleMapping sampleContent
      (by decide)).1,
    (reconcile_isolation ⟨true⟩ RangeOrder.forward sampleHosts sampleMapping sampleContent
      (by decide)).2.1 (by decide) (Or.inr (by decide))⟩

/-- C3 as stated fails. An address that starts with a blank is written into a fresh
managed line whose field 0, once the line is trimmed, is the address without the blank;
an address with a tab is cut at the tab; a name with a tab is cut at the tab in field 1;
a name with a newline breaks the managed line in two. In the first, second and fourth
case no managed line of the new content has the address as field 0, in the third the
field 1 of the line is not the serialisation of the names. -/
theorem completeness_fails_as_stated :
    (reconcile (New ⟨true⟩) RangeOrder.forward [] [(" 10.0.0.1".toList, ["a.ns.svc".toList])] =
        some "\n 10.0.0.1\ta.ns.svc\t# lb-hosts-manager".toList ∧
      (split '\n' "\n 10.0.0.1\ta.ns.svc\t# lb-hosts-manager".toList).filter
        (fun x => isManaged (New ⟨true⟩) x && decide (field0 x = " 10.0.0.1".toList)) = []) ∧
    (reconcile (New ⟨true⟩) RangeOrder.forward [] [("10.0\t0.1".toList, ["a.ns.svc".toList])] =
        some "\n10.0\t0.1\ta.ns.svc\t# lb-hosts-manager".toList ∧
      (split '\n' "\n10.0\t0.1\ta.ns.svc\t# lb-hosts-manager".toList).filter
        (fun x => isManaged (New ⟨true⟩) x && decide (field0 x = "10.0\t0.1".toList)) = []) ∧
    (reconcile (New ⟨true⟩) RangeOrder.forward [] [("10.0.0.1".toList, ["a\tb".toList])] =
        some "\n10.0.0.1\ta\tb\t# lb-hosts-manager".toList ∧
      (split '\n' "\n10.0.0.1\ta\tb\t# lb-hosts-manager".toList).filter
        (fun x => isManaged (New ⟨true⟩) x && decide (field0 x = "10.0.0.1".toList)) =
        ["10.0.0.1\ta\tb\t# lb-hosts-manager".toList] ∧
      fields "10.0.0.1\ta\tb\t# lb-hosts-manager".toList =
        ["10.0.0.1".toList, "a".toList, "b".toList, markerKey] ∧
      canonicalNames ["a\tb".toList] = "a\tb".toList) ∧
    (reconcile (New ⟨true⟩) RangeOrder.forward [] [("10.0.0.1".toList, ["a\nb".toList])] =
        some "\n10.0.0.1\ta\nb\t# lb-hosts-manager".toList ∧
      (split '\n' "\n10.0.0.1\ta\nb\t# lb-hosts-manager".toList).filter
        (fun x => isManaged (New ⟨true⟩) x && decide (field0 x = "10.0.0.1".toList)) = []) := by
  decide

/-- The completeness of C3 on the sample file: one managed line for `10.0.0.1`, with the
two names in ascending order. -/
theorem reconcile_completeness_witness :
    reconcile (New ⟨true⟩) RangeOrder.forward sampleHosts sampleMapping = some sampleContent ∧
    ∃ l rest,
      (split '\n' sampleContent).filter
        (fun x => isManaged (New ⟨true⟩) x && decide (field0 x = "10.0.0.1".toList)) = [l] ∧
      fields l = "10.0.0.1".toList ::
        canonicalNames ["b.ns.svc".toList, "a.ns.svc".toList] :: rest ∧
      (slicesSort ["b.ns.svc".toList, "a.ns.svc".toList]).Sorted
        (fun a b => strLe a b = true) ∧
      (slicesSort ["b.ns.svc".toList, "a.ns.svc".toList]).Perm
        ["b.ns.svc".toList, "a.ns.svc".toList] :=
  ⟨by decide,
    reconcile_completeness ⟨true⟩ RangeOrder.forward sampleHosts sampleMapping sampleContent
      "10.0.0.1".toList ["b.ns.svc".toList, "a.ns.svc".toList]
      (by decide) (by decide) (by decide) (by decide)⟩

/-- The minimality of C4 on the sample file: the managed line of `10.0.0.2`, an address
that is not in the mapping, is gone. -/
theorem reconcile_minimality_witness :
    plainMapping sampleMapping ∧
    reconcile (New ⟨true⟩) RangeOrder.forward sampleHosts sampleMapping = some sampleContent ∧
    (∀ l ∈ split '\n' sampleContent, isManaged (New ⟨true⟩) l = true →
      field0 l ∈ GoMap.keys sampleMapping) ∧
    (∀ l ∈ split '\n' sampleHosts, isManaged (New ⟨true⟩) l = true →
      field0 l ∉ GoMap.keys sampleMapping → l ∉ split '\n' sampleContent) :=
  ⟨by decide, by decide,
    reconcile_minimality ⟨true⟩ RangeOrder.forward sampleHosts sampleMapping sampleContent
      (by decide) (by decide)⟩

/-- The idempotence of C5 on the sample file: a first run that visits the map backward
and a second run that visits it forward. -/
theorem reconcile_idempotent_witness :
    plainMapping twoAddresses ∧
    reconcile (New ⟨true⟩) RangeOrder.backward sampleHosts twoAddresses =
      some ("127.0.0.1\tlocalhost\n10.0.0.2\tb.ns.svc\t# lb-hosts-manager\n" ++
        "10.0.0.1\ta.ns.svc\t# lb-hosts-manager").toList ∧
    reconcile (New ⟨true⟩) RangeOrder.forward
      ("127.0.0.1\tlocalhost\n10.0.0.2\tb.ns.svc\t# lb-hosts-manager\n" ++
        "10.0.0.1\ta.ns.svc\t# lb-hosts-manager").toList twoAddresses =
      some ("127.0.0.1\tlocalhost\n10.0.0.2\tb.ns.svc\t# lb-hosts-manager\n" ++
        "10.0.0.1\ta.ns.svc\t# lb-hosts-manager").toList :=
  ⟨by decide, by decide,
    reconcile_idempotent ⟨true⟩ RangeOrder.backward RangeOrder.forward sampleHosts twoAddresses
      _ (by decide) (by decide) (by decide)⟩

/-- C8 as stated fails: on an empty hosts file the content written for the mapping of
`10.0.0.1` to `a.ns.svc` starts with a newline, so it is not the managed line alone. -/
theorem scenario_a_fails_as_stated :
    updateHostsFile (New ⟨true⟩) RangeOrder.forward (.ok []) none
        [("10.0.0.1".toList, ["a.ns.svc".toList])] =
      some { err := none,
             written := some "\n10.0.0.1\ta.ns.svc\t# lb-hosts-manager".toList } ∧
    "\n10.0.0.1\ta.ns.svc\t# lb-hosts-manager".toList ≠
      "10.0.0.1\ta.ns.svc\t# lb-hosts-manager".toList := by
  decide

/-- C9 as stated fails: on the same content and the same mapping, two orders of visiting
the map give two different contents. -/
theorem append_order_not_fixed :
    reconcile (New ⟨true⟩) RangeOrder.forward [] twoAddresses =
      some ("\n10.0.0.1\ta.ns.svc\t# lb-hosts-manager\n" ++
        "10.0.0.2\tb.ns.svc\t# lb-hosts-manager").toList ∧
    reconcile (New ⟨true⟩) RangeOrder.backward [] twoAddresses =
      some ("\n10.0.0.2\tb.ns.svc\t# lb-hosts-manager\n" ++
        "10.0.0.1\ta.ns.svc\t# lb-hosts-manager").toList ∧
    reconcile (New ⟨true⟩) RangeOrder.forward [] twoAddresses ≠
      reconcile (New ⟨true⟩) RangeOrder.backward [] twoAddresses := by
  decide

/-- The reduction of C7 on three candidates of one address, two of them the same. -/
theorem processServices_witness :
    processServices RangeOrder.backward sampleCandidates =
      [("10.0.0.5".toList, ["svc-a.ns.svc".toList, "svc-b.ns.svc".toList])] ∧
    (["svc-a.ns.svc".toList, "svc-b.ns.svc".toList].Nodup ∧
      ["svc-a.ns.svc".toList, "svc-b.ns.svc".toList] ≠ [] ∧
      ∀ d, d ∈ ["svc-a.ns.svc".toList, "svc-b.ns.svc".toList] ↔
        ({ dns := d, ip := "10.0.0.5".toList } : service) ∈ sampleCandidates) :=
  ⟨by decide,
    (processServices_spec RangeOrder.backward sampleCandidates).2.2.1 "10.0.0.5".toList
      ["svc-a.ns.svc".toList, "svc-b.ns.svc".toList] (by decide)⟩

/-- The error policy of C10 on a tick whose client cannot be built: the loop returns the
wrapped error when errors are not ignored, and goes on to the next iteration, where it
finds the context cancelled, when they are. -/
theorem handleError_policy_witness :
    tick (New ⟨false⟩) failingTick = some (some (GoError.msg "no kubeconfig".toList)) ∧
    loop (New ⟨false⟩) [(false, failingTick)] =
      .returned (some (wrapped (GoError.msg "no kubeconfig".toList))) ∧
    loop (New ⟨true⟩) [(false, failingTick), (true, failingTick)] = .returned none :=
  ⟨rfl,
    (handleError_policy ⟨false⟩ failingTick (GoError.msg "no kubeconfig".toList) [] rfl).2.2.2,
    ((handleError_policy ⟨true⟩ failingTick (GoError.msg "no kubeconfig".toList)
      [(true, failingTick)] rfl).2.2).trans rfl⟩

end LbHostsManager
